import Mathlib

/-!
Verification of the lyric-video authoring tool.

This file gives a shallow embedding, in Lean 4, of the parts of the
application that the specification talks about:

* the timed-lyric data model and the playback-time-to-lyric-index
  synchronisation of the preview component (`currentIndex`,
  `lyricsToRender`) and of the export loop (`canvasCurrentIndex`);
* the background-image index computation shared by preview and export;
* SRT generation (`generateSrtContent`, `formatSrtTime`) and SRT parsing
  (`parseSrt`, `parseSrtTime`), modelled character by character;
* the application-level handlers: form submission (`handleStart`), the
  password gate (`handleAiRequest`), the AI image-generation wrapper
  (`runAiImageGeneration`), and the preview/export session state with its
  operations, including the media-recorder stop handler (`recorderOnStop`).

Times are JavaScript numbers in the source; they are modelled as exact
rationals.  Browser effects (alerts, downloads, media tracks, the audio
context) are modelled as explicit fields of a state record, and each event
handler becomes a state-transition function translated line by line from
the source.  String-valued JavaScript operations (split, trim, replace,
regular-expression matching) are modelled on `List Char`; JavaScript
whitespace is modelled by its ASCII part.
-/

set_option maxRecDepth 10000

namespace LyricVideo

/-- A timed lyric line: text, start timestamp and end timestamp in seconds
(end exclusive).  This is the single persistent entity of the data model. -/
structure TimedLyric where
  text : String
  startTime : ℚ
  endTime : ℚ
  deriving DecidableEq, Repr

/-- Default lyric used only as the out-of-range placeholder of `List.getD`. -/
def defaultLyric : TimedLyric := ⟨"", 0, 0⟩

/-! ### Playback-time synchronisation (VideoPlayer) -/

/-- The predicate of the `findIndex` call in `currentIndex` and `drawFrame`:
`currentTime >= lyric.startTime && currentTime < lyric.endTime`. -/
def activeAt (t : ℚ) (l : TimedLyric) : Bool :=
  decide (l.startTime ≤ t ∧ t < l.endTime)

/-- JavaScript `Array.prototype.findIndex`: first index whose element
satisfies the predicate, `-1` if none.  `s` is the index of the head. -/
def jsFindIndexAux {α : Type} (p : α → Bool) : List α → ℤ → ℤ
  | [], _ => -1
  | x :: xs, s => if p x then s else jsFindIndexAux p xs (s + 1)

/-- JavaScript `findIndex` starting at index 0. -/
def jsFindIndex {α : Type} (p : α → Bool) (xs : List α) : ℤ :=
  jsFindIndexAux p xs 0

/-- The `for` loop of `currentIndex` that computes `lastPassedIndex`:
walk the lyrics from the front, remember the index of the last lyric whose
`endTime` has passed, and `break` at the first one that has not. -/
def lastPassedIndexAux (t : ℚ) : List TimedLyric → ℤ → ℤ → ℤ
  | [], _, acc => acc
  | l :: ls, i, acc => if l.endTime ≤ t then lastPassedIndexAux t ls (i + 1) i else acc

/-- The preview's active-lyric index (`currentIndex` in VideoPlayer):
index 1 (a leading dummy) before playback starts, `findIndex + 2` when a
lyric is active, `length + 2` after the last lyric has ended, the dummy
after the last passed lyric inside a gap, and 1 before the first lyric. -/
def currentIndex (timedLyrics : List TimedLyric) (currentTime : ℚ) (isPlaying : Bool) : ℤ :=
  if currentTime = 0 ∧ isPlaying = false then 1
  else if jsFindIndex (activeAt currentTime) timedLyrics ≠ -1 then
    jsFindIndex (activeAt currentTime) timedLyrics + 2
  else if 0 < timedLyrics.length ∧ (timedLyrics.getLastD defaultLyric).endTime ≤ currentTime then
    (timedLyrics.length : ℤ) + 2
  else if lastPassedIndexAux currentTime timedLyrics 0 (-1) ≠ -1 then
    lastPassedIndexAux currentTime timedLyrics 0 (-1) + 3
  else 1

/-- The per-frame index computed inside the export loop
(`canvasCurrentIndex` in `drawFrame`): `findIndex + 2` when a lyric is
active, `length + 2` after the last lyric has ended, and 1 otherwise.
Unlike `currentIndex` it has no pause case and no gap case. -/
def canvasCurrentIndex (timedLyrics : List TimedLyric) (currentPlaybackTime : ℚ) : ℤ :=
  if jsFindIndex (activeAt currentPlaybackTime) timedLyrics ≠ -1 then
    jsFindIndex (activeAt currentPlaybackTime) timedLyrics + 2
  else if 0 < timedLyrics.length ∧
      (timedLyrics.getLastD defaultLyric).endTime ≤ currentPlaybackTime then
    (timedLyrics.length : ℤ) + 2
  else 1

/-- The render list of the preview: two empty dummy lines, the lyrics,
then two trailing empty dummy lines (`lyricsToRender` in VideoPlayer). -/
def lyricsToRender (timedLyrics : List TimedLyric) : List TimedLyric :=
  if timedLyrics.isEmpty then []
  else
    let firstStartTime := ((timedLyrics.head?.map TimedLyric.startTime).getD 0)
    ⟨"", -2, -1⟩ :: ⟨"", -1, firstStartTime⟩ ::
      (timedLyrics ++ [⟨"", 99999, 999999⟩, ⟨"", 999999, 9999999⟩])

/-- The situation in which the export loop's index computation and the
preview's disagree: no lyric is active, playback is before the last
lyric's end, and some lyric has already ended (a gap between lyrics). -/
def exportGapDivergence (timedLyrics : List TimedLyric) (t : ℚ) : Prop :=
  jsFindIndex (activeAt t) timedLyrics = -1 ∧
    ¬(0 < timedLyrics.length ∧ (timedLyrics.getLastD defaultLyric).endTime ≤ t) ∧
    lastPassedIndexAux t timedLyrics 0 (-1) ≠ -1

/-! ### Background-image index -/

/-- `audioRef.current?.duration || 1`: a falsy (zero) duration is replaced
by 1. -/
def durationValue (duration : ℚ) : ℚ :=
  if duration = 0 then 1 else duration

/-- `durationValue / (imageUrls.length || 1)`. -/
def imageSwitchInterval (duration : ℚ) (n : ℕ) : ℚ :=
  durationValue duration / (if n = 0 then (1 : ℚ) else (n : ℚ))

/-- The preview's background-image index:
`Math.min(Math.floor(currentTime / imageSwitchInterval), imageUrls.length - 1)`. -/
def newBgIndex (currentTime duration : ℚ) (n : ℕ) : ℤ :=
  min ⌊currentTime / imageSwitchInterval duration n⌋ ((n : ℤ) - 1)

/-- The export loop's background-image index (`currentBgIndex` in
`drawFrame`), the same formula over the loaded images. -/
def currentBgIndex (currentPlaybackTime duration : ℚ) (n : ℕ) : ℤ :=
  min ⌊currentPlaybackTime / imageSwitchInterval duration n⌋ ((n : ℤ) - 1)

/-! ### SRT generation and parsing

JavaScript strings are modelled as `List Char`; the `\s` character class
and `String.prototype.trim` are modelled by their ASCII part. -/

/-- The ASCII part of the JavaScript whitespace class `\s` (also the
characters removed by `trim`). -/
def isJsSpace (c : Char) : Bool :=
  c = ' ' || c = '\t' || c = '\n' || c = '\r' || c = '\x0b' || c = '\x0c'

/-- JavaScript `String.prototype.trim`: drop whitespace from both ends. -/
def trimChars (l : List Char) : List Char :=
  ((l.dropWhile isJsSpace).reverse.dropWhile isJsSpace).reverse

/-- JavaScript `String.prototype.split` with a single-character separator:
all pieces are kept, including empty ones. -/
def splitOnChar (sep : Char) : List Char → List (List Char)
  | [] => [[]]
  | c :: cs =>
    if c = sep then [] :: splitOnChar sep cs
    else
      match splitOnChar sep cs with
      | [] => [[c]]
      | piece :: rest => (c :: piece) :: rest

/-- `block.split('\n')`. -/
def splitLines (l : List Char) : List (List Char) :=
  splitOnChar '\n' l

/-- `lines.join('\n')`. -/
def joinLines : List (List Char) → List Char
  | [] => []
  | [l] => l
  | l :: ls => l ++ '\n' :: joinLines ls

/-- The decimal digit character for d < 10. -/
def digitChar (d : ℕ) : Char :=
  Char.ofNat ('0'.toNat + d)

/-- Decimal representation of a natural number (JavaScript
`Number.prototype.toString` for non-negative integers), with fuel for
structural recursion; `natToChars` supplies enough fuel. -/
def natToCharsAux : ℕ → ℕ → List Char
  | 0, _ => []
  | fuel + 1, n =>
    if n < 10 then [digitChar n]
    else natToCharsAux fuel (n / 10) ++ [digitChar (n % 10)]

/-- Decimal representation of a natural number. -/
def natToChars (n : ℕ) : List Char :=
  natToCharsAux (n + 1) n

/-- JavaScript `String(i)` for an integer. -/
def intToChars (i : ℤ) : List Char :=
  if i < 0 then '-' :: natToChars i.natAbs else natToChars i.toNat

/-- `String.prototype.padStart(n, '0')`. -/
def padStartZero (n : ℕ) (s : List Char) : List Char :=
  List.replicate (n - s.length) '0' ++ s

/-- The JavaScript `%` operator for the non-negative operands used by
`formatSrtTime` (for a ≥ 0, b > 0 it agrees with fmod). -/
def jsMod (a b : ℚ) : ℚ :=
  a - b * ⌊a / b⌋

/-- `(x).toFixed(3).substring(2)` for the fractional part x = seconds % 1:
the three digits after the decimal point, rounded half away from zero
(modelled exactly over ℚ; the source computes it on a float whose value,
for whole-millisecond inputs, rounds to the same three digits). -/
def toFixedMs (x : ℚ) : List Char :=
  padStartZero 3 (natToChars ((⌊x * 1000 + 1 / 2⌋).toNat % 1000))

/-- `formatSrtTime` of VideoPlayer: HH:MM:SS,mmm from a time in seconds. -/
def formatSrtTime (seconds : ℚ) : List Char :=
  padStartZero 2 (intToChars ⌊seconds / 3600⌋) ++ ':' ::
    (padStartZero 2 (intToChars ⌊jsMod seconds 3600 / 60⌋) ++ ':' ::
      (padStartZero 2 (intToChars ⌊jsMod seconds 60⌋) ++ ',' :: toFixedMs (jsMod seconds 1)))

/-- The time line of an SRT block: start --> end. -/
def timeLineChars (lyric : TimedLyric) : List Char :=
  formatSrtTime lyric.startTime ++ ' ' :: '-' :: '-' :: '>' :: ' ' ::
    formatSrtTime lyric.endTime

/-- One SRT block without its trailing blank line:
index + 1, newline, time line, newline, text. -/
def srtBlockChars (index : ℕ) (lyric : TimedLyric) : List Char :=
  natToChars (index + 1) ++ '\n' :: (timeLineChars lyric ++ '\n' :: lyric.text.data)

/-- The body of `generateSrtContent`: for each lyric, its block followed by
a blank line. -/
def generateSrtAux : ℕ → List TimedLyric → List Char
  | _, [] => []
  | i, l :: ls => (srtBlockChars i l ++ ['\n', '\n']) ++ generateSrtAux (i + 1) ls

/-- `generateSrtContent` of VideoPlayer. -/
def generateSrtContent (timedLyrics : List TimedLyric) : String :=
  String.mk (generateSrtAux 0 timedLyrics)

/-- `srtContent.replace(/\r\n/g, '\n')`. -/
def replaceCrLf : List Char → List Char
  | [] => []
  | [c] => [c]
  | c :: b :: rest =>
    if c = '\r' ∧ b = '\n' then '\n' :: replaceCrLf rest
    else c :: replaceCrLf (b :: rest)

/-- Helper for the block separator regex `\n\s*\n`: given the whitespace
run that follows an initial newline, split it after its last newline.
Returns none when the run contains no newline (no separator match), and
otherwise the part of the run up to and including its last newline (the
greedily matched part) together with the leftover whitespace. -/
def splitAtLastNewline : List Char → Option (List Char × List Char)
  | [] => none
  | c :: cs =>
    match splitAtLastNewline cs with
    | some (a, b) => some (c :: a, b)
    | none => if c = '\n' then some ([c], cs) else none

/-- `content.split(/\n\s*\n/)`: scan left to right; at each newline match
the regex greedily (consume the following whitespace up to and including
its last newline); a match ends the current block, and the leftover
whitespace after the last newline starts the next block.  Fuel-based so
that the definition is structural; each step consumes at least one
character, so `splitSrtBlocks` supplies enough fuel. -/
def splitBlocksF : ℕ → List Char → List Char → List (List Char)
  | _, acc, [] => [acc.reverse]
  | 0, acc, rest => [acc.reverse ++ rest]
  | fuel + 1, acc, c :: cs =>
    if c = '\n' then
      match splitAtLastNewline (cs.takeWhile isJsSpace) with
      | some (_, leftover) =>
        acc.reverse :: splitBlocksF fuel [] (leftover ++ cs.dropWhile isJsSpace)
      | none => splitBlocksF fuel (c :: acc) cs
    else splitBlocksF fuel (c :: acc) cs

/-- `content.split(/\n\s*\n/)` with enough fuel. -/
def splitSrtBlocks (cs : List Char) : List (List Char) :=
  splitBlocksF cs.length [] cs

/-- Does the list start with the three characters of `-->`? -/
def startsWithArrow : List Char → Bool
  | a :: b :: c :: _ => a = '-' && b = '-' && c = '>'
  | _ => false

/-- `line.includes('-->')`. -/
def containsArrow : List Char → Bool
  | [] => false
  | c :: cs => startsWithArrow (c :: cs) || containsArrow cs

/-- Match `\d{2}:\d{2}:\d{2},\d{3}` at the head of the list, returning the
twelve matched characters and the remainder. -/
def matchTimestamp : List Char → Option (List Char × List Char)
  | a :: b :: c1 :: d :: e :: c2 :: f :: g :: c3 :: h :: i :: j :: rest =>
    if a.isDigit && b.isDigit && c1 = ':' && d.isDigit && e.isDigit && c2 = ':' &&
        f.isDigit && g.isDigit && c3 = ',' && h.isDigit && i.isDigit && j.isDigit then
      some ([a, b, c1, d, e, c2, f, g, c3, h, i, j], rest)
    else none
  | _ => none

/-- Match `\s*-->\s*` at the head of the list (the whitespace is consumed
deterministically because `-` is not whitespace). -/
def matchArrowTail (cs : List Char) : Option (List Char) :=
  if (cs.dropWhile isJsSpace).take 3 = ['-', '-', '>'] then
    some (((cs.dropWhile isJsSpace).drop 3).dropWhile isJsSpace)
  else none

/-- Match the full time-line regex
`(\d{2}:\d{2}:\d{2},\d{3})\s*-->\s*(\d{2}:\d{2}:\d{2},\d{3})` at the head
of the list, returning the two captured timestamps. -/
def matchTimePairAt (cs : List Char) : Option (List Char × List Char) :=
  (matchTimestamp cs).bind fun p1 =>
    (matchArrowTail p1.2).bind fun r2 =>
      (matchTimestamp r2).map fun p2 => (p1.1, p2.1)

/-- `timeLine.match(regex)`: try the pattern at each position, left to
right. -/
def findTimeMatch : List Char → Option (List Char × List Char)
  | [] => none
  | c :: cs =>
    match matchTimePairAt (c :: cs) with
    | some r => some r
    | none => findTimeMatch cs

/-- `parseInt(s, 10)` restricted to the all-digit strings produced by the
timestamp regex. -/
def charsToNat (l : List Char) : ℕ :=
  l.foldl (fun acc c => 10 * acc + (c.toNat - '0'.toNat)) 0

/-- `parseSrtTime` of utils.ts: parse HH:MM:SS,mmm into seconds.  It is
only ever applied to the captures of the timestamp regex, which are
guaranteed to be digit groups. -/
def parseSrtTime (time : List Char) : ℚ :=
  (charsToNat ((splitOnChar ':' time).getD 0 []) : ℚ) * 3600 +
    (charsToNat ((splitOnChar ':' time).getD 1 []) : ℚ) * 60 +
    (charsToNat ((splitOnChar ',' ((splitOnChar ':' time).getD 2 [])).getD 0 []) : ℚ) +
    (charsToNat ((splitOnChar ',' ((splitOnChar ':' time).getD 2 [])).getD 1 []) : ℚ) / 1000

/-- The body of the block loop of `parseSrt`: a block contributes a lyric
when it has at least two lines, one of its lines contains an arrow, the
time-line regex matches that line, and the joined and trimmed remaining
lines are non-empty. -/
def parseBlock (block : List Char) : Option TimedLyric :=
  if 2 ≤ (splitLines block).length then
    if jsFindIndex containsArrow (splitLines block) ≠ -1 then
      (findTimeMatch
          ((splitLines block).getD (jsFindIndex containsArrow (splitLines block)).toNat [])).bind
        fun tm =>
          if trimChars (joinLines ((splitLines block).drop
              ((jsFindIndex containsArrow (splitLines block)).toNat + 1))) ≠ [] then
            some ⟨String.mk (trimChars (joinLines ((splitLines block).drop
                ((jsFindIndex containsArrow (splitLines block)).toNat + 1)))),
              parseSrtTime tm.1, parseSrtTime tm.2⟩
          else none
    else none
  else none

/-- `parseSrt` of utils.ts: normalise line endings, trim, split into
blocks, and parse each block. -/
def parseSrt (srtContent : String) : List TimedLyric :=
  (splitSrtBlocks (trimChars (replaceCrLf srtContent.data))).filterMap parseBlock

/-! ### Helper views used to state and prove the SRT properties -/

/-- The two decimal digits of n < 100. -/
def twoDigitChars (n : ℕ) : List Char :=
  [digitChar (n / 10), digitChar (n % 10)]

/-- The three decimal digits of n < 1000. -/
def threeDigitChars (n : ℕ) : List Char :=
  [digitChar (n / 100), digitChar (n / 10 % 10), digitChar (n % 10)]

/-- The twelve characters HH:MM:SS,mmm of a whole number of milliseconds
below 100 hours. -/
def stampChars (k : ℕ) : List Char :=
  twoDigitChars (k / 3600000) ++ ':' :: (twoDigitChars (k % 3600000 / 60000) ++ ':' ::
    (twoDigitChars (k % 60000 / 1000) ++ ',' :: threeDigitChars (k % 1000)))

/-- A time that is a non-negative whole number of milliseconds below 100
hours (360000 seconds). -/
def wholeMsBelow100h (q : ℚ) : Prop :=
  ∃ k : ℕ, k < 360000000 ∧ q = (k : ℚ) / 1000

/-- A lyric text that survives the SRT round trip: non-empty, equal to its
own trim, free of carriage returns, with no whitespace-only line and no
line containing the arrow of the SRT time line. -/
def goodText (t : String) : Prop :=
  t.data ≠ [] ∧ trimChars t.data = t.data ∧ '\r' ∉ t.data ∧
    ∀ line ∈ splitLines t.data, line.dropWhile isJsSpace ≠ [] ∧ containsArrow line = false

/-- A lyric to which the SRT round trip applies. -/
def goodLyric (l : TimedLyric) : Prop :=
  goodText l.text ∧ wholeMsBelow100h l.startTime ∧ wholeMsBelow100h l.endTime

/-- The generated SRT content without its final blank line: the blocks
separated by blank lines.  `generateSrtAux i lyrics` equals
`genSepChars i lyrics ++ ['\n', '\n']` for non-empty `lyrics`, and after
the trim inside `parseSrt` exactly `genSepChars` remains. -/
def genSepChars : ℕ → List TimedLyric → List Char
  | _, [] => []
  | i, [l] => srtBlockChars i l
  | i, l :: ls => srtBlockChars i l ++ '\n' :: '\n' :: genSepChars (i + 1) ls

/-- The blocks of the generated SRT content, as the block splitter returns
them. -/
def genBlocks : ℕ → List TimedLyric → List (List Char)
  | _, [] => []
  | i, l :: ls => srtBlockChars i l :: genBlocks (i + 1) ls

/-! ### Application-level state and handlers

Browser effects are modelled as explicit fields: alerts as the list of
messages shown so far, downloads as the list of files saved so far, and
the single API call of a handler as its outcome passed in as a
parameter. -/

/-- The screens of the application. -/
inductive AppScreen where
  | WELCOME
  | FORM
  | TIMING
  | PREVIEW
  deriving DecidableEq, Repr

/-- A background entry: an uploaded file or a data URL produced by the AI
generation. -/
inductive BgImage where
  | file (name : String)
  | dataUrl (url : String)
  deriving DecidableEq, Repr

/-- The form-level state that `handleStart` reads and writes. -/
structure AppFormState where
  lyricsText : String
  songTitle : String
  artistName : String
  audioFile : Option String
  timedLyricsFromSrt : Option (List TimedLyric)
  timedLyrics : List TimedLyric
  appState : AppScreen
  alerts : List String
  deriving DecidableEq, Repr

/-- `handleStart` of the App component: reject the submission with an
alert when a required field is missing (empty text or no file, the falsy
values); otherwise go to PREVIEW with the SRT-derived lyrics installed
when they exist, and to TIMING otherwise. -/
def handleStart (s : AppFormState) : AppFormState :=
  if s.lyricsText = "" ∨ s.audioFile = none ∨ s.songTitle = "" ∨ s.artistName = "" then
    { s with alerts := s.alerts ++ ["請填寫所有必填欄位！"] }
  else
    match s.timedLyricsFromSrt with
    | some srt => { s with timedLyrics := srt, appState := AppScreen.PREVIEW }
    | none => { s with appState := AppScreen.TIMING }

/-- The stored password constant of the App component. -/
def AI_PASSWORD : String := "8888"

/-- The state the password gate reads and writes; the guarded action is
modelled by counting how often it has run. -/
structure AiGateState where
  isAiUnlocked : Bool
  alerts : List String
  actionRuns : ℕ
  deriving DecidableEq, Repr

/-- `handleAiRequest` of the App component: run the action at once when
already unlocked; otherwise prompt for the password (the prompt's return
value, null on cancel, is the parameter), and on the correct password
alert, set the unlocked flag and run the action; on a wrong non-null
entry only alert; on cancel do nothing. -/
def handleAiRequest (promptInput : Option String) (s : AiGateState) : AiGateState :=
  if s.isAiUnlocked then { s with actionRuns := s.actionRuns + 1 }
  else
    match promptInput with
    | some password =>
      if password = AI_PASSWORD then
        { s with alerts := s.alerts ++ ["密碼正確，AI 功能已為您開啟！"],
                 isAiUnlocked := true, actionRuns := s.actionRuns + 1 }
      else { s with alerts := s.alerts ++ ["密碼錯誤！"] }
    | none => s

/-- The state read and written by the AI image-generation wrapper. -/
structure AiGenState where
  lyricsText : String
  songTitle : String
  artistName : String
  backgroundImages : List BgImage
  isLoading : Option String
  alerts : List String
  apiCalls : ℕ
  deriving DecidableEq, Repr

/-- `runAiImageGeneration` of the App component, with the outcome of its
single `generateImagesForLyrics` call passed in as `apiResult` (a promise
rejection is `Except.error`).  Missing fields alert and return without
calling the API; a successful call appends the returned images to the
background list; a failed call is caught, alerts, and leaves the list
unchanged; both completed paths clear the loading indicator in the
`finally` block, and the API is called exactly once (`apiCalls`). -/
def runAiImageGeneration (apiResult : Except String (List String)) (s : AiGenState) :
    AiGenState :=
  if s.lyricsText = "" ∨ s.songTitle = "" ∨ s.artistName = "" then
    { s with alerts := s.alerts ++ ["請先填寫歌曲名稱、歌手名稱和歌詞，才能使用 AI 生成圖片。"] }
  else
    match apiResult with
    | Except.ok images =>
      { s with apiCalls := s.apiCalls + 1,
               backgroundImages := s.backgroundImages ++ images.map BgImage.dataUrl,
               isLoading := none }
    | Except.error _ =>
      { s with apiCalls := s.apiCalls + 1,
               alerts := s.alerts ++ ["AI 圖片生成失敗，請稍後再試。"],
               isLoading := none }

/-- The state of the preview/export component (VideoPlayer), with browser
effects as explicit fields: the downloads saved so far, the tracks of the
combined media stream of an export (true = stopped), the audio context,
and the media recorder. -/
structure PlayerState where
  timedLyrics : List TimedLyric
  imageUrls : List String
  isPlaying : Bool
  audioPlaying : Bool
  wasPlaying : Bool
  currentTime : ℚ
  duration : ℚ
  bgIndex : ℤ
  exportProgress : Option ℚ
  isExportCancelled : Bool
  recorderRecording : Bool
  downloads : List String
  combinedTracks : List Bool
  audioContextClosed : Bool
  deriving DecidableEq, Repr

/-- `handlePlayPause`: pause or play the audio and flip the playing flag. -/
def handlePlayPause (s : PlayerState) : PlayerState :=
  { s with audioPlaying := if s.isPlaying then false else true,
           isPlaying := !s.isPlaying }

/-- `handleTimelineChange`: seek to the chosen time. -/
def handleTimelineChange (t : ℚ) (s : PlayerState) : PlayerState :=
  { s with currentTime := t }

/-- The background-switch effect: recompute the background index during
playback when there is more than one image. -/
def bgEffectStep (s : PlayerState) : PlayerState :=
  if 1 < s.imageUrls.length ∧ s.isPlaying = true then
    { s with bgIndex := newBgIndex s.currentTime s.duration s.imageUrls.length }
  else s

/-- `handleExportSrt`: build `generateSrtContent s.timedLyrics` and
download it under the given file name. -/
def handleExportSrt (fileName : String) (s : PlayerState) : PlayerState :=
  { s with downloads := s.downloads ++ [fileName] }

/-- `handleCancelExport`: set the cancellation flag. -/
def handleCancelExport (s : PlayerState) : PlayerState :=
  { s with isExportCancelled := true }

/-- The `recorder.onstop` handler installed by `handleExportVideo`:
download the recording unless the export was cancelled, stop every track
of the combined stream, close the audio context, clear the progress
overlay, and resume the audio if it was playing before the export. -/
def recorderOnStop (fileName : String) (s : PlayerState) : PlayerState :=
  let s1 := if s.isExportCancelled = false
    then { s with downloads := s.downloads ++ [fileName] } else s
  let s2 := { s1 with combinedTracks := s1.combinedTracks.map fun _ => true }
  let s3 := { s2 with audioContextClosed := true }
  let s4 := { s3 with exportProgress := none }
  if s4.wasPlaying then { s4 with audioPlaying := true } else s4

/-- The stop check at the top of `drawFrame`: at the end of the audio,
when the recorder is no longer recording, or when the export has been
cancelled, stop the recorder and pause and rewind the audio. -/
def drawFrameStopCheck (s : PlayerState) : PlayerState :=
  if s.duration ≤ s.currentTime ∨ s.recorderRecording = false ∨
      s.isExportCancelled = true then
    let s1 := if s.recorderRecording then { s with recorderRecording := false } else s
    { s1 with audioPlaying := false, currentTime := 0 }
  else s

/-- The operations a preview/export session can perform. -/
inductive PlayerAction where
  | playPause
  | seek (t : ℚ)
  | bgUpdate
  | exportSrt (fileName : String)
  | cancelExport
  | frameCheck
  | recorderStop (fileName : String)

/-- One step of a preview/export session. -/
def stepPlayer (a : PlayerAction) (s : PlayerState) : PlayerState :=
  match a with
  | PlayerAction.playPause => handlePlayPause s
  | PlayerAction.seek t => handleTimelineChange t s
  | PlayerAction.bgUpdate => bgEffectStep s
  | PlayerAction.exportSrt fn => handleExportSrt fn s
  | PlayerAction.cancelExport => handleCancelExport s
  | PlayerAction.frameCheck => drawFrameStopCheck s
  | PlayerAction.recorderStop fn => recorderOnStop fn s

/-- A whole session: fold the operations over the initial state. -/
def runPlayer (acts : List PlayerAction) (s : PlayerState) : PlayerState :=
  acts.foldl (fun s a => stepPlayer a s) s

/-! ## Lemmas and theorems -/

/-! ### Lemmas about list access -/

theorem getD_append_left {α : Type} (d : α) :
    ∀ (xs ys : List α) (i : ℕ), i < xs.length → (xs ++ ys).getD i d = xs.getD i d := by
  intro xs
  induction xs with
  | nil => intro ys i h; simp at h
  | cons x xs ih =>
    intro ys i h
    cases i with
    | zero => simp
    | succ i =>
      simp only [List.cons_append, List.getD_cons_succ]
      exact ih ys i (by simpa using h)

/-! ### Lemmas about jsFindIndex -/

theorem jsFindIndexAux_eq_of {α : Type} (p : α → Bool) (d : α) :
    ∀ (xs : List α) (s : ℤ) (i : ℕ), i < xs.length →
      p (xs.getD i d) = true → (∀ j, j < i → p (xs.getD j d) = false) →
      jsFindIndexAux p xs s = s + i := by
  intro xs
  induction xs with
  | nil => intro s i h; simp at h
  | cons x xs ih =>
    intro s i hlen hp hbefore
    cases i with
    | zero =>
      simp only [List.getD_cons_zero] at hp
      simp [jsFindIndexAux, hp]
    | succ i =>
      have h0 : p x = false := by
        have := hbefore 0 (Nat.succ_pos i)
        simpa using this
      simp only [jsFindIndexAux, h0, if_neg]
      have := ih (s + 1) i (by simpa using hlen)
        (by simpa using hp)
        (fun j hj => by
          have := hbefore (j + 1) (Nat.succ_lt_succ hj)
          simpa using this)
      rw [this]
      push_cast
      ring

theorem jsFindIndexAux_spec {α : Type} (p : α → Bool) (d : α) :
    ∀ (xs : List α) (s : ℤ), jsFindIndexAux p xs s = -1 ∨
      ∃ m : ℕ, m < xs.length ∧ jsFindIndexAux p xs s = s + m ∧ p (xs.getD m d) = true := by
  intro xs
  induction xs with
  | nil => intro s; left; rfl
  | cons x xs ih =>
    intro s
    by_cases hx : p x
    · right
      exact ⟨0, by simp, by simp [jsFindIndexAux, hx], by simpa using hx⟩
    · rcases ih (s + 1) with h | ⟨m, hm, hval, hp⟩
      · left
        simpa [jsFindIndexAux, hx] using h
      · right
        refine ⟨m + 1, by simpa using Nat.succ_lt_succ hm, ?_, by simpa using hp⟩
        simp only [jsFindIndexAux, hx, if_neg, Bool.false_eq_true, not_false_iff]
        rw [hval]
        push_cast
        ring

/-! ### Lemma about the lastPassedIndex loop -/

theorem lastPassedIndexAux_spec (t : ℚ) :
    ∀ (ls : List TimedLyric) (i acc : ℤ),
      (lastPassedIndexAux t ls i acc = acc ∧
        (ls = [] ∨ ¬((ls.getD 0 defaultLyric).endTime ≤ t))) ∨
      (∃ m : ℕ, m < ls.length ∧ lastPassedIndexAux t ls i acc = i + m ∧
        (m + 1 = ls.length ∨ ¬((ls.getD (m + 1) defaultLyric).endTime ≤ t))) := by
  intro ls
  induction ls with
  | nil => intro i acc; left; exact ⟨rfl, Or.inl rfl⟩
  | cons l ls ih =>
    intro i acc
    by_cases hl : l.endTime ≤ t
    · have hstep : lastPassedIndexAux t (l :: ls) i acc = lastPassedIndexAux t ls (i + 1) i := by
        simp [lastPassedIndexAux, hl]
      rcases ih (i + 1) i with ⟨hres, hreason⟩ | ⟨m, hm, hval, hcond⟩
      · right
        refine ⟨0, by simp, by simp [hstep, hres], ?_⟩
        rcases hreason with h | h
        · left; simp [h]
        · right; simpa using h
      · right
        refine ⟨m + 1, by simpa using Nat.succ_lt_succ hm, ?_, ?_⟩
        · rw [hstep, hval]; push_cast; ring
        · rcases hcond with h | h
          · left; simp [h]
          · right; simpa using h
    · left
      refine ⟨by simp [lastPassedIndexAux, hl], Or.inr ?_⟩
      simpa using hl

/-!
### C1: the active-lyric index as a function of playback time

The claim as stated fails: `currentIndex` is not a function of the playback
time alone.  When playback is paused at time zero the special case on line
84 returns the dummy index 1 even if a lyric is active at time 0; the same
time with `isPlaying = true` returns index 2.  The amended statement below
restricts the first part to states where playback has started, i.e. the
pair (time, playing) is not (0, paused); the end-exclusivity part holds
unconditionally.
-/

/-- C1 (counterexample): with a single lyric whose interval is [0, 1), at
playback time 0 the first active index is 0, yet the computed index while
paused is 1, not 0 + 2 = 2; the same time while playing gives 2, so the
index is not a function of the playback time alone and the claimed value
i + 2 fails at t = 0 when paused. -/
theorem currentIndex_paused_zero_cex :
    activeAt 0 (([⟨"a", 0, 1⟩] : List TimedLyric).getD 0 defaultLyric) = true ∧
      currentIndex [⟨"a", 0, 1⟩] 0 false = 1 ∧
      currentIndex [⟨"a", 0, 1⟩] 0 true = 2 ∧
      (1 : ℤ) ≠ 0 + 2 := by
  refine ⟨by decide, by decide, by decide, by decide⟩

/-- C1 (amended): once playback has started (the state is not
paused-at-time-zero), if i is the first index whose lyric satisfies
startTime ≤ t < endTime then the computed current index is i + 2 and entry
i + 2 of the padded render list is exactly lyric i; and, unconditionally, a
time equal to a lyric's endTime never selects that lyric as active. -/
theorem currentIndex_active_sel :
    (∀ (lyrics : List TimedLyric) (t : ℚ) (playing : Bool) (i : ℕ),
      i < lyrics.length → ¬(t = 0 ∧ playing = false) →
      activeAt t (lyrics.getD i defaultLyric) = true →
      (∀ j, j < i → activeAt t (lyrics.getD j defaultLyric) = false) →
      currentIndex lyrics t playing = (i : ℤ) + 2 ∧
        (lyricsToRender lyrics).getD (i + 2) defaultLyric = lyrics.getD i defaultLyric) ∧
    (∀ (lyrics : List TimedLyric) (t : ℚ) (playing : Bool) (k : ℕ),
      k < lyrics.length → t = (lyrics.getD k defaultLyric).endTime →
      currentIndex lyrics t playing ≠ (k : ℤ) + 2) := by
  constructor
  · intro lyrics t playing i hi hstart hact hbefore
    have hfind : jsFindIndex (activeAt t) lyrics = (i : ℤ) := by
      have := jsFindIndexAux_eq_of (activeAt t) defaultLyric lyrics 0 i hi hact hbefore
      simpa [jsFindIndex] using this
    constructor
    · have hne : ((i : ℤ)) ≠ -1 := by omega
      simp [currentIndex, hstart, hfind, hne]
    · have hnonempty : lyrics.isEmpty = false := by
        cases lyrics with
        | nil => simp at hi
        | cons a l => simp
      simp only [lyricsToRender, hnonempty, Bool.false_eq_true, if_false]
      simp only [List.getD_cons_succ]
      exact getD_append_left defaultLyric lyrics _ i hi
  · intro lyrics t playing k hk ht
    by_cases hstart : t = 0 ∧ playing = false
    · simp only [currentIndex, hstart, and_self, if_true]
      omega
    · rw [currentIndex, if_neg hstart]
      rcases jsFindIndexAux_spec (activeAt t) defaultLyric lyrics 0 with hneg | ⟨m, hm, hval, hp⟩
      · have hfind : jsFindIndex (activeAt t) lyrics = -1 := hneg
        rw [if_neg (by simp [hfind])]
        by_cases hend : 0 < lyrics.length ∧ (lyrics.getLastD defaultLyric).endTime ≤ t
        · rw [if_pos hend]
          omega
        · rw [if_neg hend]
          by_cases hlp : lastPassedIndexAux t lyrics 0 (-1) ≠ -1
          · rw [if_pos hlp]
            intro hcontra
            rcases lastPassedIndexAux_spec t lyrics 0 (-1) with ⟨hres, _⟩ | ⟨m, hm, hval, hcond⟩
            · exact hlp hres
            · rw [hval] at hcontra
              have hmk : m + 1 = k := by omega
              rcases hcond with hlen | hnotend
              · omega
              · rw [hmk] at hnotend
                rw [ht] at hnotend
                exact hnotend le_rfl
          · rw [if_neg hlp]
            omega
      · have hfind : jsFindIndex (activeAt t) lyrics = (m : ℤ) := by
          simpa [jsFindIndex] using hval
        rw [if_pos (show jsFindIndex (activeAt t) lyrics ≠ -1 by rw [hfind]; omega)]
        rw [hfind]
        intro hcontra
        have hmk : m = k := by omega
        rw [hmk] at hp
        rw [activeAt, decide_eq_true_eq] at hp
        rw [ht] at hp
        exact absurd hp.2 (lt_irrefl _)

/-- C1 (witness): the amended theorem applied to one lyric spanning [1, 2)
at playback time 3/2 while playing (first part, with i = 0), and to
playback time exactly 2 (second part, with k = 0). -/
theorem currentIndex_active_sel_witness :
    (currentIndex [⟨"a", 1, 2⟩] (mkRat 3 2) true = (0 : ℤ) + 2 ∧
      (lyricsToRender [⟨"a", 1, 2⟩]).getD 2 defaultLyric =
        ([⟨"a", 1, 2⟩] : List TimedLyric).getD 0 defaultLyric) ∧
    currentIndex [⟨"a", 1, 2⟩] 2 true ≠ (0 : ℤ) + 2 := by
  constructor
  · exact currentIndex_active_sel.1 [⟨"a", 1, 2⟩] (mkRat 3 2) true 0 (by decide)
      (by decide) (by decide) (fun j hj => absurd hj (Nat.not_lt_zero j))
  · exact currentIndex_active_sel.2 [⟨"a", 1, 2⟩] 2 true 0 (by decide) (by decide)

/-!
### C2: the export loop replays the preview's index logic

The claim fails: `drawFrame` reimplements only the first two cases of
`currentIndex` and drops the gap case (lines 105-116 have no counterpart
after line 331).  In a gap strictly between two lyrics, with at least one
lyric already finished, the preview computes lastPassedIndex + 3 while the
export loop falls through to the dummy index 1.  The amended statement
excludes exactly those gap times.
-/

/-- C2 (counterexample): with lyrics spanning [0, 1) and [2, 3), at
playback time 3/2 (which is > 0, i.e. during playback) the export loop
computes index 1 while the preview computes index 3. -/
theorem canvasIndex_gap_cex :
    (0 : ℚ) < mkRat 3 2 ∧
      canvasCurrentIndex [⟨"a", 0, 1⟩, ⟨"b", 2, 3⟩] (mkRat 3 2) = 1 ∧
      currentIndex [⟨"a", 0, 1⟩, ⟨"b", 2, 3⟩] (mkRat 3 2) true = 3 ∧
      canvasCurrentIndex [⟨"a", 0, 1⟩, ⟨"b", 2, 3⟩] (mkRat 3 2) ≠
        currentIndex [⟨"a", 0, 1⟩, ⟨"b", 2, 3⟩] (mkRat 3 2) true := by
  refine ⟨by decide, by decide, by decide, by decide⟩

/-- C2 (amended): during playback (t > 0 or playing), and provided t does
not fall in a gap strictly between lyrics (no active lyric, some lyric
already ended, before the last lyric's end), the per-frame index computed
inside the export loop equals the preview's index at the same time. -/
theorem canvasIndex_eq_currentIndex (lyrics : List TimedLyric) (t : ℚ) (playing : Bool)
    (hplay : 0 < t ∨ playing = true) (hgap : ¬exportGapDivergence lyrics t) :
    canvasCurrentIndex lyrics t = currentIndex lyrics t playing := by
  have hstart : ¬(t = 0 ∧ playing = false) := by
    rcases hplay with h | h
    · rintro ⟨ht, _⟩; rw [ht] at h; exact lt_irrefl _ h
    · rintro ⟨_, hpl⟩; rw [h] at hpl; exact Bool.true_eq_false.mp hpl
  rw [currentIndex, if_neg hstart, canvasCurrentIndex]
  by_cases hfind : jsFindIndex (activeAt t) lyrics ≠ -1
  · rw [if_pos hfind, if_pos hfind]
  · rw [if_neg hfind, if_neg hfind]
    by_cases hend : 0 < lyrics.length ∧ (lyrics.getLastD defaultLyric).endTime ≤ t
    · rw [if_pos hend, if_pos hend]
    · rw [if_neg hend, if_neg hend]
      have hlp : ¬lastPassedIndexAux t lyrics 0 (-1) ≠ -1 := by
        intro hlp
        exact hgap ⟨not_not.mp hfind, hend, hlp⟩
      rw [if_neg hlp]

/-- C2 (witness): the amended theorem applied to a single lyric spanning
[1, 2) at playback time 3/2 while playing. -/
theorem canvasIndex_eq_currentIndex_witness :
    canvasCurrentIndex [⟨"a", 1, 2⟩] (mkRat 3 2) =
      currentIndex [⟨"a", 1, 2⟩] (mkRat 3 2) true :=
  canvasIndex_eq_currentIndex [⟨"a", 1, 2⟩] (mkRat 3 2) true (Or.inr rfl)
    (by intro h; exact absurd h.1 (by decide))

/-!
### C10: the background-image index is always in bounds
-/

/-- C10: for a non-empty image list of length n, a non-negative playback
time and a positive duration, both the preview's background index and the
export loop's per-frame background index lie in 0 .. n - 1, so the image
lookup never goes out of bounds. -/
theorem bgIndex_in_bounds (t d : ℚ) (n : ℕ) (hn : 1 ≤ n) (ht : 0 ≤ t) (hd : 0 < d) :
    (0 ≤ newBgIndex t d n ∧ newBgIndex t d n ≤ (n : ℤ) - 1 ∧ (newBgIndex t d n).toNat < n) ∧
    (0 ≤ currentBgIndex t d n ∧ currentBgIndex t d n ≤ (n : ℤ) - 1 ∧
      (currentBgIndex t d n).toNat < n) := by
  have hn0 : n ≠ 0 := by omega
  have hdv : durationValue d = d := by
    rw [durationValue, if_neg (ne_of_gt hd)]
  have hint : 0 < imageSwitchInterval d n := by
    rw [imageSwitchInterval, hdv, if_neg hn0]
    positivity
  have hfloor : 0 ≤ ⌊t / imageSwitchInterval d n⌋ := by
    apply Int.floor_nonneg.mpr
    positivity
  have hbound : (0 : ℤ) ≤ (n : ℤ) - 1 := by omega
  have h1 : 0 ≤ newBgIndex t d n := le_min hfloor hbound
  have h2 : newBgIndex t d n ≤ (n : ℤ) - 1 := min_le_right _ _
  have h3 : 0 ≤ currentBgIndex t d n := le_min hfloor hbound
  have h4 : currentBgIndex t d n ≤ (n : ℤ) - 1 := min_le_right _ _
  exact ⟨⟨h1, h2, by omega⟩, ⟨h3, h4, by omega⟩⟩

/-- C10 (witness): the bounds at time 5, duration 10, with 3 images. -/
theorem bgIndex_in_bounds_witness :
    0 ≤ newBgIndex 5 10 3 ∧ newBgIndex 5 10 3 ≤ (3 : ℤ) - 1 ∧
      (currentBgIndex 5 10 3).toNat < 3 := by
  have h := bgIndex_in_bounds 5 10 3 (by norm_num) (by norm_num) (by norm_num)
  exact ⟨h.1.1, h.1.2.1, h.2.2.2⟩

/-! ### Generic lemmas about takeWhile, dropWhile and splitOnChar -/

theorem length_dropWhile_le {α : Type} (p : α → Bool) :
    ∀ l : List α, (l.dropWhile p).length ≤ l.length := by
  intro l
  induction l with
  | nil => simp
  | cons c cs ih =>
    rw [List.dropWhile_cons]
    split
    · exact Nat.le_succ_of_le ih
    · simp

theorem dropWhile_cons_of_neg {α : Type} {p : α → Bool} {c : α} (cs : List α)
    (h : p c = false) : (c :: cs).dropWhile p = c :: cs := by
  rw [List.dropWhile_cons, if_neg (by simp [h])]

theorem takeWhile_cons_of_neg {α : Type} {p : α → Bool} {c : α} (cs : List α)
    (h : p c = false) : (c :: cs).takeWhile p = [] := by
  rw [List.takeWhile_cons, if_neg (by simp [h])]

theorem takeWhile_append_of_stop {α : Type} (p : α → Bool) :
    ∀ (x z : List α), x.dropWhile p ≠ [] → (x ++ z).takeWhile p = x.takeWhile p := by
  intro x
  induction x with
  | nil => intro z h; simp at h
  | cons c cs ih =>
    intro z h
    by_cases hc : p c
    · rw [List.cons_append, List.takeWhile_cons, if_pos (by simp [hc]),
        List.takeWhile_cons, if_pos (by simp [hc])]
      rw [ih z (by rwa [List.dropWhile_cons, if_pos (by simp [hc])] at h)]
    · rw [List.cons_append, takeWhile_cons_of_neg _ (by simpa using hc),
        takeWhile_cons_of_neg _ (by simpa using hc)]

theorem dropWhile_append_of_stop {α : Type} (p : α → Bool) :
    ∀ (x z : List α), x.dropWhile p ≠ [] → (x ++ z).dropWhile p = x.dropWhile p ++ z := by
  intro x
  induction x with
  | nil => intro z h; simp at h
  | cons c cs ih =>
    intro z h
    by_cases hc : p c
    · rw [List.cons_append, List.dropWhile_cons, if_pos (by simp [hc])]
      rw [List.dropWhile_cons, if_pos (by simp [hc])] at h ⊢
      exact ih z h
    · rw [List.cons_append, dropWhile_cons_of_neg _ (by simpa using hc),
        dropWhile_cons_of_neg _ (by simpa using hc), List.cons_append]

theorem splitOnChar_ne_nil (sep : Char) : ∀ l : List Char, splitOnChar sep l ≠ [] := by
  intro l
  induction l with
  | nil => simp [splitOnChar]
  | cons c cs ih =>
    rw [splitOnChar]
    split
    · simp
    · cases hsplit : splitOnChar sep cs with
      | nil => exact absurd hsplit ih
      | cons piece rest => simp

theorem splitOnChar_cons_of_ne {sep c : Char} (cs : List Char) (h : ¬c = sep) :
    ∃ piece rest, splitOnChar sep cs = piece :: rest ∧
      splitOnChar sep (c :: cs) = (c :: piece) :: rest := by
  cases hsplit : splitOnChar sep cs with
  | nil => exact absurd hsplit (splitOnChar_ne_nil sep cs)
  | cons piece rest =>
    refine ⟨piece, rest, rfl, ?_⟩
    rw [splitOnChar, if_neg h, hsplit]

theorem splitOnChar_sepjoin (sep : Char) :
    ∀ (a b : List Char), splitOnChar sep (a ++ sep :: b) =
      splitOnChar sep a ++ splitOnChar sep b := by
  intro a
  induction a with
  | nil =>
    intro b
    simp [splitOnChar]
  | cons c a ih =>
    intro b
    by_cases hc : c = sep
    · subst hc
      simp [splitOnChar, ih b]
    · obtain ⟨piece, rest, hsplit, hcons⟩ := splitOnChar_cons_of_ne (a ++ sep :: b) hc
      rw [List.cons_append, hcons]
      obtain ⟨piece', rest', hsplit', hcons'⟩ := splitOnChar_cons_of_ne a hc
      rw [hcons']
      rw [ih b, hsplit'] at hsplit
      rw [List.cons_append] at hsplit
      injection hsplit with h1 h2
      subst h1
      subst h2
      simp

theorem splitOnChar_no_sep {sep : Char} :
    ∀ {l : List Char}, sep ∉ l → splitOnChar sep l = [l] := by
  intro l
  induction l with
  | nil => intro _; rfl
  | cons c cs ih =>
    intro h
    have hc : ¬c = sep := fun hc => h (hc ▸ List.mem_cons_self c cs)
    obtain ⟨piece, rest, hsplit, hcons⟩ := splitOnChar_cons_of_ne cs hc
    rw [hcons]
    have := ih (fun hm => h (List.mem_cons_of_mem c hm))
    rw [this] at hsplit
    injection hsplit with h1 h2
    rw [h1, h2]

theorem mem_splitOnChar_no_sep {sep : Char} :
    ∀ {l piece : List Char}, piece ∈ splitOnChar sep l → sep ∉ piece := by
  intro l
  induction l with
  | nil =>
    intro piece h
    simp [splitOnChar] at h
    simp [h]
  | cons c cs ih =>
    intro piece h
    by_cases hc : c = sep
    · subst hc
      rw [splitOnChar, if_pos rfl] at h
      rcases List.mem_cons.mp h with h | h
      · simp [h]
      · exact ih h
    · obtain ⟨p, rest, hsplit, hcons⟩ := splitOnChar_cons_of_ne cs hc
      rw [hcons] at h
      rcases List.mem_cons.mp h with h | h
      · subst h
        intro hmem
        rcases List.mem_cons.mp hmem with h | h
        · exact hc h.symm
        · exact ih (hsplit ▸ List.mem_cons_self p rest) h
      · exact ih (hsplit ▸ List.mem_cons_of_mem p h)

theorem joinLines_cons (l : List Char) (ls : List (List Char)) (h : ls ≠ []) :
    joinLines (l :: ls) = l ++ '\n' :: joinLines ls := by
  cases ls with
  | nil => exact absurd rfl h
  | cons q ls' => rfl

theorem joinLines_splitLines : ∀ l : List Char, joinLines (splitLines l) = l := by
  intro l
  induction l with
  | nil => rfl
  | cons c cs ih =>
    by_cases hc : c = '\n'
    · subst hc
      rw [splitLines, splitOnChar, if_pos rfl]
      rw [joinLines_cons [] _ (splitOnChar_ne_nil '\n' cs)]
      rw [List.nil_append]
      rw [splitLines] at ih
      rw [ih]
    · obtain ⟨piece, rest, hsplit, hcons⟩ := splitOnChar_cons_of_ne cs hc
      rw [splitLines, hcons]
      rw [splitLines, hsplit] at ih
      cases rest with
      | nil =>
        rw [joinLines] at ih ⊢
        rw [ih]
      | cons q rest' =>
        rw [joinLines_cons _ _ (by simp)] at ih
        rw [joinLines_cons _ _ (by simp), List.cons_append, ih]

/-! ### Digit characters and decimal representations -/

theorem digitChar_isDigit : ∀ d, d < 10 → (digitChar d).isDigit = true := by decide

theorem digitChar_props : ∀ d, d < 10 →
    isJsSpace (digitChar d) = false ∧ digitChar d ≠ '\n' ∧ digitChar d ≠ '\r' ∧
      digitChar d ≠ ':' ∧ digitChar d ≠ ',' ∧ digitChar d ≠ '-' := by decide

theorem digitChar_val : ∀ d, d < 10 → (digitChar d).toNat - '0'.toNat = d := by decide

theorem natToCharsAux_mem :
    ∀ (fuel n : ℕ) (c : Char), c ∈ natToCharsAux fuel n → ∃ d, d < 10 ∧ c = digitChar d := by
  intro fuel
  induction fuel with
  | zero => intro n c h; simp [natToCharsAux] at h
  | succ fuel ih =>
    intro n c h
    rw [natToCharsAux] at h
    by_cases hn : n < 10
    · rw [if_pos hn] at h
      simp at h
      exact ⟨n, hn, h⟩
    · rw [if_neg hn] at h
      rcases List.mem_append.mp h with h | h
      · exact ih _ _ h
      · simp at h
        exact ⟨n % 10, Nat.mod_lt n (by norm_num), h⟩

theorem natToChars_mem {n : ℕ} {c : Char} (h : c ∈ natToChars n) :
    ∃ d, d < 10 ∧ c = digitChar d :=
  natToCharsAux_mem (n + 1) n c h

theorem natToChars_ne_nil (n : ℕ) : natToChars n ≠ [] := by
  rw [natToChars, natToCharsAux]
  by_cases hn : n < 10
  · rw [if_pos hn]; simp
  · rw [if_neg hn]; simp

theorem padStartZero_two : ∀ n, n < 100 →
    padStartZero 2 (natToChars n) = twoDigitChars n := by decide

theorem padStartZero_three : ∀ n, n < 1000 →
    padStartZero 3 (natToChars n) = threeDigitChars n := by decide

theorem intToChars_ofNat (m : ℕ) : intToChars (m : ℤ) = natToChars m := by
  rw [intToChars, if_neg (by omega)]
  simp

theorem charsToNat_two {n : ℕ} (h : n < 100) : charsToNat (twoDigitChars n) = n := by
  have h1 : n / 10 < 10 := by omega
  have h2 : n % 10 < 10 := by omega
  rw [twoDigitChars, charsToNat]
  simp only [List.foldl_cons, List.foldl_nil]
  rw [digitChar_val _ h1, digitChar_val _ h2]
  omega

theorem charsToNat_three {n : ℕ} (h : n < 1000) : charsToNat (threeDigitChars n) = n := by
  have h1 : n / 100 < 10 := by omega
  have h2 : n / 10 % 10 < 10 := by omega
  have h3 : n % 10 < 10 := by omega
  rw [threeDigitChars, charsToNat]
  simp only [List.foldl_cons, List.foldl_nil]
  rw [digitChar_val _ h1, digitChar_val _ h2, digitChar_val _ h3]
  omega

theorem mem_twoDigitChars {n : ℕ} (h : n < 100) {c : Char} (hc : c ∈ twoDigitChars n) :
    ∃ d, d < 10 ∧ c = digitChar d := by
  rw [twoDigitChars] at hc
  rcases List.mem_cons.mp hc with h1 | h1
  · exact ⟨n / 10, by omega, h1⟩
  · simp at h1
    exact ⟨n % 10, by omega, h1⟩

theorem mem_threeDigitChars {n : ℕ} (h : n < 1000) {c : Char} (hc : c ∈ threeDigitChars n) :
    ∃ d, d < 10 ∧ c = digitChar d := by
  rw [threeDigitChars] at hc
  rcases List.mem_cons.mp hc with h1 | h1
  · exact ⟨n / 100, by omega, h1⟩
  rcases List.mem_cons.mp h1 with h2 | h2
  · exact ⟨n / 10 % 10, by omega, h2⟩
  · simp at h2
    exact ⟨n % 10, by omega, h2⟩

theorem mem_stampChars {k : ℕ} (hk : k < 360000000) {c : Char} (hc : c ∈ stampChars k) :
    (∃ d, d < 10 ∧ c = digitChar d) ∨ c = ':' ∨ c = ',' := by
  have hH : k / 3600000 < 100 := by omega
  have hM : k % 3600000 / 60000 < 100 := by omega
  have hS : k % 60000 / 1000 < 100 := by omega
  have hms : k % 1000 < 1000 := by omega
  rw [stampChars] at hc
  rcases List.mem_append.mp hc with h | h
  · exact Or.inl (mem_twoDigitChars hH h)
  rcases List.mem_cons.mp h with h | h
  · exact Or.inr (Or.inl h)
  rcases List.mem_append.mp h with h | h
  · exact Or.inl (mem_twoDigitChars hM h)
  rcases List.mem_cons.mp h with h | h
  · exact Or.inr (Or.inl h)
  rcases List.mem_append.mp h with h | h
  · exact Or.inl (mem_twoDigitChars hS h)
  rcases List.mem_cons.mp h with h | h
  · exact Or.inr (Or.inr h)
  · exact Or.inl (mem_threeDigitChars hms h)

/-! ### Arithmetic of the time fields -/

theorem floor_natCast_div (a b : ℕ) (hb : 0 < b) :
    ⌊(a : ℚ) / (b : ℚ)⌋ = ((a / b : ℕ) : ℤ) := by
  have hbq : (0 : ℚ) < (b : ℚ) := by exact_mod_cast hb
  rw [Int.floor_eq_iff]
  constructor
  · rw [le_div_iff hbq]
    exact_mod_cast Nat.div_mul_le_self a b
  · rw [div_lt_iff hbq]
    have h1 := Nat.div_add_mod a b
    have h2 := Nat.mod_lt a hb
    have h3 : a < (a / b + 1) * b := by
      calc a = b * (a / b) + a % b := h1.symm
        _ < b * (a / b) + b := by omega
        _ = (a / b + 1) * b := by ring
    push_cast
    exact_mod_cast h3

theorem jsMod_natCast_div (a b c : ℕ) (hb : 0 < b) (hc : 0 < c) :
    jsMod ((a : ℚ) / (c : ℚ)) (b : ℚ) = ((a % (b * c) : ℕ) : ℚ) / (c : ℚ) := by
  have hbq : (0 : ℚ) < (b : ℚ) := by exact_mod_cast hb
  have hcq : (0 : ℚ) < (c : ℚ) := by exact_mod_cast hc
  rw [jsMod]
  have h1 : ((a : ℚ) / c) / b = (a : ℚ) / ((b * c : ℕ) : ℚ) := by
    rw [div_div]
    push_cast
    ring_nf
  rw [h1, floor_natCast_div a (b * c) (Nat.mul_pos hb hc)]
  have key : (a : ℚ) = ((b * c : ℕ) : ℚ) * ((a / (b * c) : ℕ) : ℚ) + ((a % (b * c) : ℕ) : ℚ) := by
    exact_mod_cast (Nat.div_add_mod a (b * c)).symm
  have hbc : ((b * c : ℕ) : ℚ) = (b : ℚ) * (c : ℚ) := by push_cast; ring
  rw [hbc] at key
  rw [Int.cast_natCast]
  field_simp
  linear_combination key

theorem floor_natCast_add_half (m : ℕ) : ⌊(m : ℚ) + 1 / 2⌋ = (m : ℤ) := by
  rw [Int.floor_eq_iff]
  constructor
  · push_cast; linarith
  · push_cast; linarith

/-! ### The format and parse of a single timestamp -/

theorem jsMod_k_3600 (k : ℕ) : jsMod ((k : ℚ) / 1000) 3600 = ((k % 3600000 : ℕ) : ℚ) / 1000 := by
  have := jsMod_natCast_div k 3600 1000 (by norm_num) (by norm_num)
  push_cast at this ⊢
  convert this using 3 <;> norm_num

theorem jsMod_k_60 (k : ℕ) : jsMod ((k : ℚ) / 1000) 60 = ((k % 60000 : ℕ) : ℚ) / 1000 := by
  have := jsMod_natCast_div k 60 1000 (by norm_num) (by norm_num)
  push_cast at this ⊢
  convert this using 3 <;> norm_num

theorem jsMod_k_1 (k : ℕ) : jsMod ((k : ℚ) / 1000) 1 = ((k % 1000 : ℕ) : ℚ) / 1000 := by
  have := jsMod_natCast_div k 1 1000 (by norm_num) (by norm_num)
  push_cast at this ⊢
  convert this using 3 <;> norm_num

theorem floor_k_3600 (k : ℕ) : ⌊((k : ℚ) / 1000) / 3600⌋ = ((k / 3600000 : ℕ) : ℤ) := by
  have h : ((k : ℚ) / 1000) / 3600 = (k : ℚ) / ((3600000 : ℕ) : ℚ) := by
    rw [div_div]; norm_num
  rw [h, floor_natCast_div k 3600000 (by norm_num)]

theorem floor_k_60 (k : ℕ) : ⌊((k : ℚ) / 1000) / 60⌋ = ((k / 60000 : ℕ) : ℤ) := by
  have h : ((k : ℚ) / 1000) / 60 = (k : ℚ) / ((60000 : ℕ) : ℚ) := by
    rw [div_div]; norm_num
  rw [h, floor_natCast_div k 60000 (by norm_num)]

theorem floor_k_1000 (k : ℕ) : ⌊(k : ℚ) / 1000⌋ = ((k / 1000 : ℕ) : ℤ) := by
  have h : (k : ℚ) / 1000 = (k : ℚ) / ((1000 : ℕ) : ℚ) := by norm_num
  rw [h, floor_natCast_div k 1000 (by norm_num)]

theorem toFixedMs_frac (m : ℕ) (hm : m < 1000) :
    toFixedMs ((m : ℚ) / 1000) = threeDigitChars m := by
  rw [toFixedMs]
  have h1 : (m : ℚ) / 1000 * 1000 = (m : ℚ) := by field_simp
  rw [h1, floor_natCast_add_half m]
  simp only [Int.toNat_natCast]
  rw [Nat.mod_eq_of_lt hm]
  exact padStartZero_three m hm

theorem formatSrtTime_stamp (k : ℕ) (hk : k < 360000000) :
    formatSrtTime ((k : ℚ) / 1000) = stampChars k := by
  have hH : k / 3600000 < 100 := by omega
  have hM : k % 3600000 / 60000 < 100 := by omega
  have hS : k % 60000 / 1000 < 100 := by omega
  have hms : k % 1000 < 1000 := by omega
  rw [formatSrtTime, stampChars]
  rw [floor_k_3600 k, intToChars_ofNat, padStartZero_two _ hH]
  rw [jsMod_k_3600 k, floor_k_60 (k % 3600000), intToChars_ofNat, padStartZero_two _ hM]
  rw [jsMod_k_60 k, floor_k_1000 (k % 60000), intToChars_ofNat, padStartZero_two _ hS]
  rw [jsMod_k_1 k, toFixedMs_frac _ hms]

/-! ### Character classes of the generated content -/

theorem not_mem_of_digits {l : List Char}
    (hl : ∀ c ∈ l, ∃ d, d < 10 ∧ c = digitChar d) :
    ':' ∉ l ∧ ',' ∉ l ∧ '\n' ∉ l ∧ '\r' ∉ l ∧ ∀ c ∈ l, ¬c = '-' := by
  refine ⟨fun hmem => ?_, fun hmem => ?_, fun hmem => ?_, fun hmem => ?_, fun c hmem hc => ?_⟩
  · obtain ⟨d, hd, hc⟩ := hl _ hmem
    exact (digitChar_props d hd).2.2.2.1 hc.symm
  · obtain ⟨d, hd, hc⟩ := hl _ hmem
    exact (digitChar_props d hd).2.2.2.2.1 hc.symm
  · obtain ⟨d, hd, hc⟩ := hl _ hmem
    exact (digitChar_props d hd).2.1 hc.symm
  · obtain ⟨d, hd, hc⟩ := hl _ hmem
    exact (digitChar_props d hd).2.2.1 hc.symm
  · obtain ⟨d, hd, hc'⟩ := hl _ hmem
    exact (digitChar_props d hd).2.2.2.2.2 (hc ▸ hc'.symm)

theorem stampChars_explicit (k : ℕ) :
    stampChars k =
      [digitChar (k / 3600000 / 10), digitChar (k / 3600000 % 10), ':',
       digitChar (k % 3600000 / 60000 / 10), digitChar (k % 3600000 / 60000 % 10), ':',
       digitChar (k % 60000 / 1000 / 10), digitChar (k % 60000 / 1000 % 10), ',',
       digitChar (k % 1000 / 100), digitChar (k % 1000 / 10 % 10), digitChar (k % 1000 % 10)] := by
  simp [stampChars, twoDigitChars, threeDigitChars]

/-! ### The timestamp parse of a formatted stamp -/

theorem parseSrtTime_stamp (k : ℕ) (hk : k < 360000000) :
    parseSrtTime (stampChars k) = (k : ℚ) / 1000 := by
  have hH : k / 3600000 < 100 := by omega
  have hM : k % 3600000 / 60000 < 100 := by omega
  have hS : k % 60000 / 1000 < 100 := by omega
  have hms : k % 1000 < 1000 := by omega
  have hA := not_mem_of_digits (fun c hc => mem_twoDigitChars hH hc)
  have hB := not_mem_of_digits (fun c hc => mem_twoDigitChars hM hc)
  have hC := not_mem_of_digits (fun c hc => mem_twoDigitChars hS hc)
  have hD := not_mem_of_digits (fun c hc => mem_threeDigitChars hms hc)
  have hCD : ':' ∉ twoDigitChars (k % 60000 / 1000) ++ ',' :: threeDigitChars (k % 1000) := by
    intro hmem
    rcases List.mem_append.mp hmem with h | h
    · exact hC.1 h
    rcases List.mem_cons.mp h with h | h
    · exact absurd h (by decide)
    · exact hD.1 h
  have hsplitColon : splitOnChar ':' (stampChars k) =
      [twoDigitChars (k / 3600000), twoDigitChars (k % 3600000 / 60000),
        twoDigitChars (k % 60000 / 1000) ++ ',' :: threeDigitChars (k % 1000)] := by
    rw [stampChars, splitOnChar_sepjoin ':', splitOnChar_sepjoin ':',
      splitOnChar_no_sep hA.1, splitOnChar_no_sep hB.1, splitOnChar_no_sep hCD]
    rfl
  have hsplitComma : splitOnChar ','
      (twoDigitChars (k % 60000 / 1000) ++ ',' :: threeDigitChars (k % 1000)) =
      [twoDigitChars (k % 60000 / 1000), threeDigitChars (k % 1000)] := by
    rw [splitOnChar_sepjoin ',', splitOnChar_no_sep hC.2.1, splitOnChar_no_sep hD.2.1]
    rfl
  rw [parseSrtTime, hsplitColon]
  simp only [List.getD_cons_zero, List.getD_cons_succ]
  rw [hsplitComma]
  simp only [List.getD_cons_zero, List.getD_cons_succ]
  rw [charsToNat_two hH, charsToNat_two hM, charsToNat_two hS, charsToNat_three hms]
  have hid : 3600000 * (k / 3600000) + 60000 * (k % 3600000 / 60000) +
      1000 * (k % 60000 / 1000) + k % 1000 = k := by omega
  have hq : 3600000 * ((k / 3600000 : ℕ) : ℚ) + 60000 * ((k % 3600000 / 60000 : ℕ) : ℚ) +
      1000 * ((k % 60000 / 1000 : ℕ) : ℚ) + ((k % 1000 : ℕ) : ℚ) = (k : ℚ) := by
    exact_mod_cast congrArg (fun n : ℕ => (n : ℚ)) hid
  field_simp
  linear_combination hq

/-! ### Matching the generated time line -/

theorem matchTimestamp_stamp (k : ℕ) (hk : k < 360000000) (rest : List Char) :
    matchTimestamp (stampChars k ++ rest) = some (stampChars k, rest) := by
  have h1 : k / 3600000 / 10 < 10 := by omega
  have h2 : k / 3600000 % 10 < 10 := by omega
  have h3 : k % 3600000 / 60000 / 10 < 10 := by omega
  have h4 : k % 3600000 / 60000 % 10 < 10 := by omega
  have h5 : k % 60000 / 1000 / 10 < 10 := by omega
  have h6 : k % 60000 / 1000 % 10 < 10 := by omega
  have h7 : k % 1000 / 100 < 10 := by omega
  have h8 : k % 1000 / 10 % 10 < 10 := by omega
  have h9 : k % 1000 % 10 < 10 := by omega
  rw [stampChars_explicit k]
  simp only [List.cons_append, List.nil_append]
  rw [matchTimestamp]
  rw [if_pos]
  simp [digitChar_isDigit _ h1, digitChar_isDigit _ h2, digitChar_isDigit _ h3,
    digitChar_isDigit _ h4, digitChar_isDigit _ h5, digitChar_isDigit _ h6,
    digitChar_isDigit _ h7, digitChar_isDigit _ h8, digitChar_isDigit _ h9]

theorem matchTimePairAt_timeLine (ks ke : ℕ) (hks : ks < 360000000) (hke : ke < 360000000) :
    matchTimePairAt (stampChars ks ++ ' ' :: '-' :: '-' :: '>' :: ' ' :: stampChars ke) =
      some (stampChars ks, stampChars ke) := by
  have harrow : matchArrowTail (' ' :: '-' :: '-' :: '>' :: ' ' :: stampChars ke) =
      some (stampChars ke) := by
    have hdrop1 : (' ' :: '-' :: '-' :: '>' :: ' ' :: stampChars ke).dropWhile isJsSpace =
        '-' :: '-' :: '>' :: ' ' :: stampChars ke := by
      rw [List.dropWhile_cons, if_pos (by decide)]
      exact dropWhile_cons_of_neg _ (by decide)
    have hdrop2 : (' ' :: stampChars ke).dropWhile isJsSpace = stampChars ke := by
      rw [List.dropWhile_cons, if_pos (by decide)]
      rw [stampChars_explicit ke]
      exact dropWhile_cons_of_neg _ ((digitChar_props _ (show ke / 3600000 / 10 < 10 by omega)).1)
    rw [matchArrowTail, hdrop1]
    rw [if_pos (by rfl)]
    show some ((' ' :: stampChars ke).dropWhile isJsSpace) = some (stampChars ke)
    rw [hdrop2]
  rw [matchTimePairAt, matchTimestamp_stamp ks hks]
  simp only [Option.some_bind]
  rw [harrow]
  simp only [Option.some_bind]
  have hlast := matchTimestamp_stamp ke hke []
  rw [List.append_nil] at hlast
  rw [hlast]
  rfl

theorem startsWithArrow_false_of_ne {c : Char} (cs : List Char) (h : ¬c = '-') :
    startsWithArrow (c :: cs) = false := by
  cases cs with
  | nil => rfl
  | cons b cs' =>
    cases cs' with
    | nil => rfl
    | cons e cs'' => simp [startsWithArrow, h]

theorem containsArrow_false_of_no_dash {l : List Char} (h : ∀ c ∈ l, ¬c = '-') :
    containsArrow l = false := by
  induction l with
  | nil => rfl
  | cons c cs ih =>
    rw [containsArrow, startsWithArrow_false_of_ne cs (h c (List.mem_cons_self c cs)),
      ih (fun c' hc' => h c' (List.mem_cons_of_mem _ hc'))]
    rfl

theorem containsArrow_of_append_right {x y : List Char} (h : containsArrow y = true) :
    containsArrow (x ++ y) = true := by
  induction x with
  | nil => simpa using h
  | cons c x ih =>
    rw [List.cons_append, containsArrow, ih]
    simp

theorem containsArrow_timeLine (a rest : List Char) :
    containsArrow (a ++ ' ' :: '-' :: '-' :: '>' :: rest) = true := by
  apply containsArrow_of_append_right
  rw [containsArrow, containsArrow]
  have : startsWithArrow ('-' :: '-' :: '>' :: rest) = true := by
    simp [startsWithArrow]
  rw [this]
  simp

theorem findTimeMatch_timeLine (ks ke : ℕ) (hks : ks < 360000000) (hke : ke < 360000000) :
    findTimeMatch (stampChars ks ++ ' ' :: '-' :: '-' :: '>' :: ' ' :: stampChars ke) =
      some (stampChars ks, stampChars ke) := by
  have hm := matchTimePairAt_timeLine ks ke hks hke
  rw [stampChars_explicit ks] at hm ⊢
  simp only [List.cons_append, List.nil_append] at hm ⊢
  rw [findTimeMatch, hm]

/-! ### Parsing a generated block -/

theorem splitLines_append_no_newline {x : List Char} (y : List Char) (hx : '\n' ∉ x) :
    splitLines (x ++ '\n' :: y) = x :: splitLines y := by
  rw [splitLines, splitOnChar_sepjoin '\n' x y, splitOnChar_no_sep hx]
  rfl

theorem natToChars_no_newline (n : ℕ) : '\n' ∉ natToChars n :=
  (not_mem_of_digits (fun _ hc => natToChars_mem hc)).2.2.1

theorem timeLine_no_newline (ks ke : ℕ) (hks : ks < 360000000) (hke : ke < 360000000) :
    '\n' ∉ stampChars ks ++ ' ' :: '-' :: '-' :: '>' :: ' ' :: stampChars ke := by
  intro hmem
  rcases List.mem_append.mp hmem with h | h
  · rcases mem_stampChars hks h with ⟨d, hd, hc⟩ | h | h
    · exact (digitChar_props d hd).2.1 hc.symm
    · exact absurd h (by decide)
    · exact absurd h (by decide)
  · rcases List.mem_cons.mp h with h | h
    · exact absurd h (by decide)
    rcases List.mem_cons.mp h with h | h
    · exact absurd h (by decide)
    rcases List.mem_cons.mp h with h | h
    · exact absurd h (by decide)
    rcases List.mem_cons.mp h with h | h
    · exact absurd h (by decide)
    rcases List.mem_cons.mp h with h | h
    · exact absurd h (by decide)
    · rcases mem_stampChars hke h with ⟨d, hd, hc⟩ | h | h
      · exact (digitChar_props d hd).2.1 hc.symm
      · exact absurd h (by decide)
      · exact absurd h (by decide)

theorem parseBlock_srtBlock (i : ℕ) (l : TimedLyric) (ks ke : ℕ)
    (hks : ks < 360000000) (hke : ke < 360000000)
    (hs : l.startTime = (ks : ℚ) / 1000) (he : l.endTime = (ke : ℚ) / 1000)
    (htext : trimChars l.text.data ≠ []) :
    parseBlock (srtBlockChars i l) =
      some ⟨String.mk (trimChars l.text.data), (ks : ℚ) / 1000, (ke : ℚ) / 1000⟩ := by
  have htl : timeLineChars l = stampChars ks ++ ' ' :: '-' :: '-' :: '>' :: ' ' :: stampChars ke := by
    rw [timeLineChars, hs, he, formatSrtTime_stamp ks hks, formatSrtTime_stamp ke hke]
  have hlines : splitLines (srtBlockChars i l) =
      natToChars (i + 1) :: timeLineChars l :: splitLines l.text.data := by
    rw [srtBlockChars, splitLines_append_no_newline _ (natToChars_no_newline (i + 1)),
      splitLines_append_no_newline _ (htl ▸ timeLine_no_newline ks ke hks hke)]
  have hnum : containsArrow (natToChars (i + 1)) = false :=
    containsArrow_false_of_no_dash (not_mem_of_digits (fun _ hc => natToChars_mem hc)).2.2.2.2
  have harrow : containsArrow (timeLineChars l) = true := by
    rw [htl]
    exact containsArrow_timeLine _ _
  have hidx : jsFindIndex containsArrow (splitLines (srtBlockChars i l)) = 1 := by
    rw [hlines, jsFindIndex, jsFindIndexAux, jsFindIndexAux]
    simp [hnum, harrow]
  rw [parseBlock, if_pos (by rw [hlines]; simp), if_pos (by rw [hidx]; decide), hidx]
  have htoNat : (1 : ℤ).toNat = 1 := rfl
  rw [htoNat, hlines]
  simp only [List.getD_cons_succ, List.getD_cons_zero, List.drop_succ_cons, List.drop_zero]
  rw [htl, findTimeMatch_timeLine ks ke hks hke]
  simp only [Option.some_bind]
  rw [joinLines_splitLines]
  rw [if_pos htext]
  rw [parseSrtTime_stamp ks hks, parseSrtTime_stamp ke hke]

/-! ### Trim characterisations -/

theorem dropWhile_self_or_lt {α : Type} (p : α → Bool) (l : List α) :
    l.dropWhile p = l ∨ (l.dropWhile p).length < l.length := by
  cases l with
  | nil => left; rfl
  | cons c cs =>
    by_cases hc : p c
    · right
      rw [List.dropWhile_cons, if_pos (by simp [hc])]
      exact Nat.lt_succ_of_le (length_dropWhile_le p cs)
    · left
      exact dropWhile_cons_of_neg _ (by simpa using hc)

theorem dropWhile_eq_self_of_trim_eq {l : List Char} (h : trimChars l = l) :
    l.dropWhile isJsSpace = l := by
  rcases dropWhile_self_or_lt isJsSpace l with hself | hlt
  · exact hself
  · exfalso
    have h1 : (trimChars l).length ≤ (l.dropWhile isJsSpace).length := by
      rw [trimChars, List.length_reverse]
      calc ((l.dropWhile isJsSpace).reverse.dropWhile isJsSpace).length
          ≤ (l.dropWhile isJsSpace).reverse.length := length_dropWhile_le _ _
        _ = (l.dropWhile isJsSpace).length := List.length_reverse _
    rw [h] at h1
    omega

theorem reverse_dropWhile_eq_self_of_trim_eq {l : List Char} (h : trimChars l = l) :
    l.reverse.dropWhile isJsSpace = l.reverse := by
  have h1 := dropWhile_eq_self_of_trim_eq h
  have h2 : trimChars l = (l.reverse.dropWhile isJsSpace).reverse := by
    rw [trimChars, h1]
  rw [h] at h2
  have h3 := congrArg List.reverse h2
  rw [List.reverse_reverse] at h3
  exact h3.symm

theorem head_not_space_of_trim_eq {l : List Char} (h : trimChars l = l) (hne : l ≠ []) :
    ∃ c rest, l = c :: rest ∧ isJsSpace c = false := by
  obtain ⟨c, rest, hform⟩ := List.exists_cons_of_ne_nil hne
  refine ⟨c, rest, hform, ?_⟩
  by_contra hc
  have hc' : isJsSpace c = true := by
    cases hcc : isJsSpace c
    · exact absurd hcc hc
    · rfl
  have h1 := dropWhile_eq_self_of_trim_eq h
  rw [hform, List.dropWhile_cons, if_pos (by simp [hc'])] at h1
  have := length_dropWhile_le isJsSpace rest
  have := congrArg List.length h1
  simp at this
  omega

theorem last_not_space_of_trim_eq {l : List Char} (h : trimChars l = l) (hne : l ≠ []) :
    ∃ c rest, l = rest ++ [c] ∧ isJsSpace c = false := by
  have h1 := reverse_dropWhile_eq_self_of_trim_eq h
  have hne' : l.reverse ≠ [] := by simpa using hne
  obtain ⟨c, rest, hform⟩ := List.exists_cons_of_ne_nil hne'
  refine ⟨c, rest.reverse, ?_, ?_⟩
  · have := congrArg List.reverse hform
    rw [List.reverse_reverse] at this
    rw [this]
    simp
  · by_contra hc
    have hc' : isJsSpace c = true := by
      cases hcc : isJsSpace c
      · exact absurd hcc hc
      · rfl
    rw [hform, List.dropWhile_cons, if_pos (by simp [hc'])] at h1
    have := length_dropWhile_le isJsSpace rest
    have := congrArg List.length h1
    simp at this
    omega

/-! ### The whitespace run after a newline never reaches another newline -/

theorem takeWhile_spaces_no_newline :
    ∀ (y : List Char) (z : List Char), y ≠ [] →
      (∀ line ∈ splitLines y, line.dropWhile isJsSpace ≠ []) →
      '\n' ∉ (y ++ z).takeWhile isJsSpace := by
  intro y
  induction y with
  | nil => intro z h; exact absurd rfl h
  | cons c y' ih =>
    intro z _ hlines
    by_cases hc : isJsSpace c
    · by_cases hcn : c = '\n'
      · exfalso
        subst hcn
        have : ([] : List Char) ∈ splitLines ('\n' :: y') := by
          rw [splitLines, splitOnChar, if_pos rfl]
          exact List.mem_cons_self _ _
        exact hlines [] this rfl
      · cases y' with
        | nil =>
          exfalso
          have : [c] ∈ splitLines [c] := by
            rw [splitLines,
              splitOnChar_no_sep (fun hm => hcn (List.mem_singleton.mp hm).symm)]
            exact List.mem_cons_self _ _
          have hdrop : ([c] : List Char).dropWhile isJsSpace = [] := by
            rw [List.dropWhile_cons, if_pos (by simp [hc])]
            rfl
          exact hlines [c] this hdrop
        | cons b y'' =>
          rw [List.cons_append, List.takeWhile_cons, if_pos (by simp [hc])]
          intro hmem
          rcases List.mem_cons.mp hmem with h | h
          · exact hcn h.symm
          · refine absurd h (ih z (by simp) ?_)
            intro line hline
            obtain ⟨piece, rest, hsplit, hcons⟩ :=
              splitOnChar_cons_of_ne (b :: y'') (show ¬c = '\n' from hcn)
            rw [splitLines, hcons] at hlines
            rw [splitLines, hsplit] at hline
            rcases List.mem_cons.mp hline with hl | hl
            · have := hlines (c :: piece) (List.mem_cons_self _ _)
              rw [List.dropWhile_cons, if_pos (by simp [hc])] at this
              rw [hl]
              exact this
            · exact hlines line (List.mem_cons_of_mem _ hl)
    · rw [List.cons_append, takeWhile_cons_of_neg _ (by simpa using hc)]
      exact List.not_mem_nil '\n'

/-! ### The separator scanner -/

theorem splitAtLastNewline_none {l : List Char} (h : '\n' ∉ l) :
    splitAtLastNewline l = none := by
  induction l with
  | nil => rfl
  | cons c cs ih =>
    have hc : ¬c = '\n' := fun hc => h (hc ▸ List.mem_cons_self c cs)
    have ht : '\n' ∉ cs := fun hm => h (List.mem_cons_of_mem _ hm)
    rw [splitAtLastNewline, ih ht]
    simp [hc]

theorem splitLines_suffix_mem {block x y : List Char} (h : block = x ++ '\n' :: y) :
    ∀ line ∈ splitLines y, line ∈ splitLines block := by
  intro line hline
  rw [h, splitLines, splitOnChar_sepjoin '\n' x y]
  exact List.mem_append_right _ hline

theorem splitBlocksF_chunk :
    ∀ (u rest acc : List Char) (fuel : ℕ),
      (u ++ rest).length ≤ fuel →
      (∀ x y, u = x ++ '\n' :: y → '\n' ∉ (y ++ rest).takeWhile isJsSpace) →
      splitBlocksF fuel acc (u ++ rest) =
        splitBlocksF (fuel - u.length) (u.reverse ++ acc) rest := by
  intro u
  induction u with
  | nil => intro rest acc fuel _ _; simp
  | cons c u' ih =>
    intro rest acc fuel hlen hnosep
    cases fuel with
    | zero => simp at hlen
    | succ f =>
      rw [List.cons_append, splitBlocksF]
      by_cases hc : c = '\n'
      · subst hc
        have hno : '\n' ∉ (u' ++ rest).takeWhile isJsSpace := hnosep [] u' rfl
        have hnone : splitAtLastNewline ((u' ++ rest).takeWhile isJsSpace) = none :=
          splitAtLastNewline_none hno
        rw [if_pos rfl, hnone]
        show splitBlocksF f ('\n' :: acc) (u' ++ rest) = _
        rw [ih rest ('\n' :: acc) f (by simp at hlen ⊢; omega)
          (fun x y hxy => hnosep ('\n' :: x) y (by rw [hxy]; rfl))]
        simp [Nat.succ_sub_succ]
      · rw [if_neg hc]
        rw [ih rest (c :: acc) f (by simp at hlen ⊢; omega)
          (fun x y hxy => hnosep (c :: x) y (by rw [hxy]; rfl))]
        simp [Nat.succ_sub_succ]

theorem splitBlocksF_sep (acc rest : List Char) (fuel : ℕ)
    (hrest : rest = [] ∨ ∃ c cs, rest = c :: cs ∧ isJsSpace c = false) :
    splitBlocksF (fuel + 1) acc ('\n' :: '\n' :: rest) =
      acc.reverse :: splitBlocksF fuel [] rest := by
  have htake : ('\n' :: rest).takeWhile isJsSpace = ['\n'] := by
    rw [List.takeWhile_cons, if_pos (by decide)]
    rcases hrest with h | ⟨c, cs, hform, hc⟩
    · rw [h]; rfl
    · rw [hform, takeWhile_cons_of_neg _ hc]
  have hdrop : ('\n' :: rest).dropWhile isJsSpace = rest := by
    rw [List.dropWhile_cons, if_pos (by decide)]
    rcases hrest with h | ⟨c, cs, hform, hc⟩
    · rw [h]; rfl
    · rw [hform, dropWhile_cons_of_neg _ hc]
  rw [splitBlocksF, if_pos rfl, htake]
  rw [show splitAtLastNewline ['\n'] = some (['\n'], []) from rfl]
  show acc.reverse :: splitBlocksF fuel [] ([] ++ ('\n' :: rest).dropWhile isJsSpace) = _
  rw [List.nil_append, hdrop]

/-! ### Structure of a generated block -/

theorem srtBlock_head (i : ℕ) (l : TimedLyric) :
    ∃ c rest, srtBlockChars i l = c :: rest ∧ isJsSpace c = false := by
  obtain ⟨c, rest, hform⟩ := List.exists_cons_of_ne_nil (natToChars_ne_nil (i + 1))
  obtain ⟨d, hd, hc⟩ := natToChars_mem (hform ▸ List.mem_cons_self c rest)
  refine ⟨c, rest ++ '\n' :: (timeLineChars l ++ '\n' :: l.text.data), ?_, ?_⟩
  · rw [srtBlockChars, hform]; rfl
  · rw [hc]; exact (digitChar_props d hd).1

theorem srtBlock_last (i : ℕ) (l : TimedLyric) (hgt : goodText l.text) :
    ∃ c rest, srtBlockChars i l = rest ++ [c] ∧ isJsSpace c = false := by
  obtain ⟨c, rest, hform, hc⟩ := last_not_space_of_trim_eq hgt.2.1 hgt.1
  refine ⟨c, natToChars (i + 1) ++ '\n' :: (timeLineChars l ++ '\n' :: rest), ?_, hc⟩
  rw [srtBlockChars, hform]
  simp

theorem splitLines_srtBlock (i : ℕ) (l : TimedLyric) (ks ke : ℕ)
    (hks : ks < 360000000) (hke : ke < 360000000)
    (hs : l.startTime = (ks : ℚ) / 1000) (he : l.endTime = (ke : ℚ) / 1000) :
    splitLines (srtBlockChars i l) =
      natToChars (i + 1) :: timeLineChars l :: splitLines l.text.data := by
  have htl : timeLineChars l =
      stampChars ks ++ ' ' :: '-' :: '-' :: '>' :: ' ' :: stampChars ke := by
    rw [timeLineChars, hs, he, formatSrtTime_stamp ks hks, formatSrtTime_stamp ke hke]
  rw [srtBlockChars, splitLines_append_no_newline _ (natToChars_no_newline (i + 1)),
    splitLines_append_no_newline _ (htl ▸ timeLine_no_newline ks ke hks hke)]

theorem srtBlock_lines_good (i : ℕ) (l : TimedLyric) (ks ke : ℕ)
    (hks : ks < 360000000) (hke : ke < 360000000)
    (hs : l.startTime = (ks : ℚ) / 1000) (he : l.endTime = (ke : ℚ) / 1000)
    (hgt : goodText l.text) :
    ∀ line ∈ splitLines (srtBlockChars i l), line.dropWhile isJsSpace ≠ [] := by
  intro line hline
  rw [splitLines_srtBlock i l ks ke hks hke hs he] at hline
  rcases List.mem_cons.mp hline with h | hline
  · obtain ⟨c, rest, hform⟩ := List.exists_cons_of_ne_nil (natToChars_ne_nil (i + 1))
    obtain ⟨d, hd, hc⟩ := natToChars_mem (hform ▸ List.mem_cons_self c rest)
    rw [h, hform, dropWhile_cons_of_neg _ (hc ▸ (digitChar_props d hd).1)]
    simp
  rcases List.mem_cons.mp hline with h | hline
  · have htl : timeLineChars l =
        stampChars ks ++ ' ' :: '-' :: '-' :: '>' :: ' ' :: stampChars ke := by
      rw [timeLineChars, hs, he, formatSrtTime_stamp ks hks, formatSrtTime_stamp ke hke]
    rw [h, htl, stampChars_explicit ks, List.cons_append,
      dropWhile_cons_of_neg _ ((digitChar_props _ (show ks / 3600000 / 10 < 10 by omega)).1)]
    simp
  · exact (hgt.2.2.2 line hline).1

theorem srtBlock_nosep (i : ℕ) (l : TimedLyric) (ks ke : ℕ)
    (hks : ks < 360000000) (hke : ke < 360000000)
    (hs : l.startTime = (ks : ℚ) / 1000) (he : l.endTime = (ke : ℚ) / 1000)
    (hgt : goodText l.text) :
    ∀ x y (rest2 : List Char), srtBlockChars i l = x ++ '\n' :: y →
      '\n' ∉ (y ++ rest2).takeWhile isJsSpace := by
  intro x y rest2 hxy
  have hy_ne : y ≠ [] := by
    intro hy
    subst hy
    obtain ⟨c, rest, hform, hc⟩ := srtBlock_last i l hgt
    have h1 : (srtBlockChars i l).getLast? = some '\n' := by
      rw [hxy]
      exact List.getLast?_concat x
    have h2 : (srtBlockChars i l).getLast? = some c := by
      rw [hform]
      exact List.getLast?_concat rest
    rw [h1] at h2
    injection h2 with h3
    rw [← h3] at hc
    exact absurd hc (by decide)
  apply takeWhile_spaces_no_newline y rest2 hy_ne
  intro line hline
  exact srtBlock_lines_good i l ks ke hks hke hs he hgt line
    (splitLines_suffix_mem hxy line hline)

/-! ### Structure of the generated content -/

theorem genSepChars_single (i : ℕ) (l : TimedLyric) :
    genSepChars i [l] = srtBlockChars i l := rfl

theorem genSepChars_pair (i : ℕ) (l l' : TimedLyric) (ls : List TimedLyric) :
    genSepChars i (l :: l' :: ls) =
      srtBlockChars i l ++ '\n' :: '\n' :: genSepChars (i + 1) (l' :: ls) := rfl

theorem genSep_head (lyrics : List TimedLyric) (i : ℕ) (hne : lyrics ≠ []) :
    ∃ c cs, genSepChars i lyrics = c :: cs ∧ isJsSpace c = false := by
  cases lyrics with
  | nil => exact absurd rfl hne
  | cons l ls =>
    obtain ⟨c, rest, hform, hc⟩ := srtBlock_head i l
    cases ls with
    | nil => exact ⟨c, rest, by rw [genSepChars_single, hform], hc⟩
    | cons l' ls' =>
      refine ⟨c, rest ++ '\n' :: '\n' :: genSepChars (i + 1) (l' :: ls'), ?_, hc⟩
      rw [genSepChars_pair, hform]
      rfl

theorem genSep_last :
    ∀ (lyrics : List TimedLyric) (i : ℕ), lyrics ≠ [] → (∀ l ∈ lyrics, goodLyric l) →
      ∃ c rest, genSepChars i lyrics = rest ++ [c] ∧ isJsSpace c = false := by
  intro lyrics
  induction lyrics with
  | nil => intro i h; exact absurd rfl h
  | cons l ls ih =>
    intro i _ hgood
    cases ls with
    | nil =>
      obtain ⟨c, rest, hform, hc⟩ := srtBlock_last i l (hgood l (List.mem_cons_self _ _)).1
      exact ⟨c, rest, by rw [genSepChars_single, hform], hc⟩
    | cons l' ls' =>
      obtain ⟨c, rest, hform, hc⟩ := ih (i + 1) (by simp)
        (fun x hx => hgood x (List.mem_cons_of_mem _ hx))
      refine ⟨c, srtBlockChars i l ++ '\n' :: '\n' :: rest, ?_, hc⟩
      rw [genSepChars_pair, hform]
      simp

theorem generateSrtAux_genSep :
    ∀ (lyrics : List TimedLyric) (i : ℕ), lyrics ≠ [] →
      generateSrtAux i lyrics = genSepChars i lyrics ++ ['\n', '\n'] := by
  intro lyrics
  induction lyrics with
  | nil => intro i h; exact absurd rfl h
  | cons l ls ih =>
    intro i _
    cases ls with
    | nil =>
      rw [generateSrtAux, generateSrtAux, genSepChars_single]
      simp
    | cons l' ls' =>
      rw [generateSrtAux, ih (i + 1) (by simp), genSepChars_pair]
      simp

theorem trim_generateSrtAux (lyrics : List TimedLyric) (hne : lyrics ≠ [])
    (hgood : ∀ l ∈ lyrics, goodLyric l) :
    trimChars (generateSrtAux 0 lyrics) = genSepChars 0 lyrics := by
  rw [generateSrtAux_genSep lyrics 0 hne]
  obtain ⟨c, cs, hhead, hc⟩ := genSep_head lyrics 0 hne
  obtain ⟨e, rest, hlast, he⟩ := genSep_last lyrics 0 hne hgood
  rw [trimChars]
  have hfront : (genSepChars 0 lyrics ++ ['\n', '\n']).dropWhile isJsSpace =
      genSepChars 0 lyrics ++ ['\n', '\n'] := by
    rw [hhead, List.cons_append]
    exact dropWhile_cons_of_neg _ hc
  rw [hfront]
  have hrev : (genSepChars 0 lyrics ++ ['\n', '\n']).reverse =
      '\n' :: '\n' :: (genSepChars 0 lyrics).reverse := by
    simp
  rw [hrev, List.dropWhile_cons, if_pos (by decide), List.dropWhile_cons, if_pos (by decide)]
  have hback : (genSepChars 0 lyrics).reverse.dropWhile isJsSpace =
      (genSepChars 0 lyrics).reverse := by
    have h2 : (rest ++ [e]).reverse = e :: rest.reverse := by simp
    rw [hlast, h2, dropWhile_cons_of_neg _ he]
  rw [hback, List.reverse_reverse]

theorem splitBlocksF_genSep :
    ∀ (lyrics : List TimedLyric) (i : ℕ) (fuel : ℕ), lyrics ≠ [] →
      (∀ l ∈ lyrics, goodLyric l) →
      (genSepChars i lyrics).length ≤ fuel →
      splitBlocksF fuel [] (genSepChars i lyrics) = genBlocks i lyrics := by
  intro lyrics
  induction lyrics with
  | nil => intro i fuel h; exact absurd rfl h
  | cons l ls ih =>
    intro i fuel _ hgood hfuel
    obtain ⟨hgl, ⟨ks, hks, hs⟩, ⟨ke, hke, he⟩⟩ := hgood l (List.mem_cons_self _ _)
    cases ls with
    | nil =>
      rw [genSepChars_single] at hfuel ⊢
      have := splitBlocksF_chunk (srtBlockChars i l) [] [] fuel
        (by simpa using hfuel)
        (fun x y hxy => srtBlock_nosep i l ks ke hks hke hs he hgl x y [] hxy)
      rw [List.append_nil] at this
      rw [this, splitBlocksF]
      rw [genBlocks, genBlocks]
      simp
    | cons l' ls' =>
      rw [genSepChars_pair] at hfuel ⊢
      have hchunk := splitBlocksF_chunk (srtBlockChars i l)
        ('\n' :: '\n' :: genSepChars (i + 1) (l' :: ls')) [] fuel
        (by simpa using hfuel)
        (fun x y hxy =>
          srtBlock_nosep i l ks ke hks hke hs he hgl x y _ hxy)
      rw [hchunk, List.append_nil]
      have hf1 : 1 ≤ fuel - (srtBlockChars i l).length := by
        simp at hfuel
        omega
      have hfeq : fuel - (srtBlockChars i l).length =
          (fuel - (srtBlockChars i l).length - 1) + 1 := by omega
      rw [hfeq]
      rw [splitBlocksF_sep _ _ _ ?_]
      · rw [List.reverse_reverse]
        rw [ih (i + 1) _ (by simp) (fun x hx => hgood x (List.mem_cons_of_mem _ hx)) ?_]
        · rfl
        · simp at hfuel ⊢
          omega
      · rcases genSep_head (l' :: ls') (i + 1) (by simp) with ⟨c, cs, hform, hc⟩
        exact Or.inr ⟨c, cs, hform, hc⟩

/-! ### The generated content has no carriage returns -/

theorem no_cr_stampChars {k : ℕ} (hk : k < 360000000) : '\r' ∉ stampChars k := by
  intro hm
  rcases mem_stampChars hk hm with ⟨d, hd, hc⟩ | h | h
  · exact (digitChar_props d hd).2.2.1 hc.symm
  · exact absurd h (by decide)
  · exact absurd h (by decide)

theorem no_cr_srtBlock {i : ℕ} {l : TimedLyric} {ks ke : ℕ}
    (hks : ks < 360000000) (hke : ke < 360000000)
    (hs : l.startTime = (ks : ℚ) / 1000) (he : l.endTime = (ke : ℚ) / 1000)
    (hgt : goodText l.text) : '\r' ∉ srtBlockChars i l := by
  have htl : timeLineChars l =
      stampChars ks ++ ' ' :: '-' :: '-' :: '>' :: ' ' :: stampChars ke := by
    rw [timeLineChars, hs, he, formatSrtTime_stamp ks hks, formatSrtTime_stamp ke hke]
  intro hm
  rw [srtBlockChars] at hm
  rcases List.mem_append.mp hm with h | h
  · exact (not_mem_of_digits (fun _ hc => natToChars_mem hc)).2.2.2.1 h
  rcases List.mem_cons.mp h with h | h
  · exact absurd h (by decide)
  rcases List.mem_append.mp h with h | h
  · rw [htl] at h
    rcases List.mem_append.mp h with h | h
    · exact no_cr_stampChars hks h
    rcases List.mem_cons.mp h with h | h
    · exact absurd h (by decide)
    rcases List.mem_cons.mp h with h | h
    · exact absurd h (by decide)
    rcases List.mem_cons.mp h with h | h
    · exact absurd h (by decide)
    rcases List.mem_cons.mp h with h | h
    · exact absurd h (by decide)
    rcases List.mem_cons.mp h with h | h
    · exact absurd h (by decide)
    · exact no_cr_stampChars hke h
  rcases List.mem_cons.mp h with h | h
  · exact absurd h (by decide)
  · exact hgt.2.2.1 h

theorem no_cr_generateSrtAux :
    ∀ (lyrics : List TimedLyric) (i : ℕ), (∀ l ∈ lyrics, goodLyric l) →
      '\r' ∉ generateSrtAux i lyrics := by
  intro lyrics
  induction lyrics with
  | nil => intro i _ hm; simp [generateSrtAux] at hm
  | cons l ls ih =>
    intro i hgood hm
    obtain ⟨hgl, ⟨ks, hks, hs⟩, ⟨ke, hke, he⟩⟩ := hgood l (List.mem_cons_self _ _)
    rw [generateSrtAux] at hm
    rcases List.mem_append.mp hm with h | h
    · rcases List.mem_append.mp h with h | h
      · exact no_cr_srtBlock hks hke hs he hgl h
      · exact absurd h (by decide)
    · exact ih (i + 1) (fun x hx => hgood x (List.mem_cons_of_mem _ hx)) h

/-! ### Carriage-return normalisation is the identity here -/

theorem replaceCrLf_cons_of_ne {c : Char} (cs : List Char) (hc : ¬c = '\r') :
    replaceCrLf (c :: cs) = c :: replaceCrLf cs := by
  cases cs with
  | nil => rfl
  | cons b cs' =>
    rw [replaceCrLf, if_neg (fun h => hc h.1)]

theorem replaceCrLf_eq_self {l : List Char} (h : '\r' ∉ l) : replaceCrLf l = l := by
  induction l with
  | nil => rfl
  | cons c cs ih =>
    rw [replaceCrLf_cons_of_ne cs (fun hc => h (hc ▸ List.mem_cons_self c cs)),
      ih (fun hm => h (List.mem_cons_of_mem _ hm))]

/-! ### Parsing the generated blocks -/

theorem filterMap_genBlocks :
    ∀ (lyrics : List TimedLyric) (i : ℕ), (∀ l ∈ lyrics, goodLyric l) →
      (genBlocks i lyrics).filterMap parseBlock = lyrics := by
  intro lyrics
  induction lyrics with
  | nil => intro i _; rfl
  | cons l ls ih =>
    intro i hgood
    obtain ⟨hgl, ⟨ks, hks, hs⟩, ⟨ke, hke, he⟩⟩ := hgood l (List.mem_cons_self _ _)
    have htext : trimChars l.text.data ≠ [] := by
      rw [hgl.2.1]
      exact hgl.1
    have hpb := parseBlock_srtBlock i l ks ke hks hke hs he htext
    have hval : (⟨String.mk (trimChars l.text.data), (ks : ℚ) / 1000, (ke : ℚ) / 1000⟩ :
        TimedLyric) = l := by
      rw [hgl.2.1, ← hs, ← he]
    rw [show genBlocks i (l :: ls) = srtBlockChars i l :: genBlocks (i + 1) ls from rfl]
    rw [List.filterMap_cons, hpb, hval]
    rw [ih (i + 1) (fun x hx => hgood x (List.mem_cons_of_mem _ hx))]

/-!
### C3: the SRT round trip

The claim as stated fails: `parseSrt` trims the text of each block and
collapses `\r\n`, so a text with leading or trailing whitespace (or a
carriage return) does not survive the round trip even though it is
non-empty, has no blank line, no line containing the arrow, and
whole-millisecond times.  The amended claim additionally requires each
text to equal its own trim, to contain no carriage return, and to have no
whitespace-only line (a whitespace-only line splits the block in two).
-/

/-- C3 (counterexample): the single lyric with text " a" (leading space)
satisfies every hypothesis of the claim — non-empty text, no
whitespace-only line, no line containing the arrow, whole-millisecond
times below 100 hours — yet the round trip returns the trimmed text "a". -/
theorem roundtrip_untrimmed_text_cex :
    (" a" : String) ≠ "" ∧
      (∀ line ∈ splitLines (" a" : String).data,
        line.dropWhile isJsSpace ≠ [] ∧ containsArrow line = false) ∧
      wholeMsBelow100h (0 : ℚ) ∧ wholeMsBelow100h (1 : ℚ) ∧
      parseSrt (generateSrtContent [⟨" a", 0, 1⟩]) = [⟨"a", 0, 1⟩] ∧
      parseSrt (generateSrtContent [⟨" a", 0, 1⟩]) ≠ [⟨" a", 0, 1⟩] := by
  refine ⟨by decide, by decide, ⟨0, by norm_num⟩, ⟨1000, by norm_num⟩, ?_, ?_⟩
  · with_unfolding_all decide
  · with_unfolding_all decide

/-- C3 (amended): for every non-empty list of timed lyrics in which each
text is non-empty, equal to its own trim, free of carriage returns, with
no whitespace-only line and no line containing the arrow, and each start
and end time a non-negative whole number of milliseconds below 100 hours,
`parseSrt` applied to the string produced by `generateSrtContent` returns
exactly the original list. -/
theorem parseSrt_generateSrt_roundtrip (lyrics : List TimedLyric)
    (hne : lyrics ≠ []) (hgood : ∀ l ∈ lyrics, goodLyric l) :
    parseSrt (generateSrtContent lyrics) = lyrics := by
  rw [parseSrt, generateSrtContent]
  rw [show (String.mk (generateSrtAux 0 lyrics)).data = generateSrtAux 0 lyrics from rfl]
  rw [replaceCrLf_eq_self (no_cr_generateSrtAux lyrics 0 hgood)]
  rw [trim_generateSrtAux lyrics hne hgood]
  rw [splitSrtBlocks]
  rw [splitBlocksF_genSep lyrics 0 _ hne hgood le_rfl]
  exact filterMap_genBlocks lyrics 0 hgood

/-- C3 (witness): the round trip on one concrete lyric, "Hello" from
second 0 to second 3. -/
theorem parseSrt_generateSrt_roundtrip_witness :
    parseSrt (generateSrtContent [⟨"Hello", 0, 3⟩]) = [⟨"Hello", 0, 3⟩] :=
  parseSrt_generateSrt_roundtrip [⟨"Hello", 0, 3⟩] (by simp)
    (by
      intro l hl
      rw [List.mem_singleton] at hl
      subst hl
      exact ⟨⟨by decide, by decide, by decide, by decide⟩,
        ⟨0, by norm_num, by norm_num⟩, ⟨3000, by norm_num, by norm_num⟩⟩)

/-! ### Idempotence of trim -/

theorem head_dropWhile_not {α : Type} (p : α → Bool) :
    ∀ (l : List α), l.dropWhile p ≠ [] → ∃ c cs, l.dropWhile p = c :: cs ∧ p c = false := by
  intro l
  induction l with
  | nil => intro h; exact absurd rfl h
  | cons c cs ih =>
    intro h
    by_cases hc : p c
    · rw [List.dropWhile_cons, if_pos (by simp [hc])] at h ⊢
      exact ih h
    · have hc' : p c = false := by simpa using hc
      exact ⟨c, cs, dropWhile_cons_of_neg _ hc', hc'⟩

theorem getLast?_cons_ne {α : Type} (c : α) (cs : List α) (h : cs ≠ []) :
    (c :: cs).getLast? = cs.getLast? := by
  cases cs with
  | nil => exact absurd rfl h
  | cons b cs' => exact List.getLast?_cons_cons

theorem getLast?_dropWhile {α : Type} (p : α → Bool) :
    ∀ (l : List α), l.dropWhile p ≠ [] → (l.dropWhile p).getLast? = l.getLast? := by
  intro l
  induction l with
  | nil => intro h; exact absurd rfl h
  | cons c cs ih =>
    intro h
    by_cases hc : p c
    · rw [List.dropWhile_cons, if_pos (by simp [hc])] at h ⊢
      have hcs : cs ≠ [] := by
        intro hn
        rw [hn] at h
        exact h rfl
      rw [ih h, getLast?_cons_ne c cs hcs]
    · rw [dropWhile_cons_of_neg _ (by simpa using hc)]

theorem trimChars_last_not_space {l : List Char} (hne : trimChars l ≠ []) :
    ∃ c cs, trimChars l = cs ++ [c] ∧ isJsSpace c = false := by
  rw [trimChars] at hne ⊢
  have hinner : (l.dropWhile isJsSpace).reverse.dropWhile isJsSpace ≠ [] := by
    intro h
    rw [h] at hne
    exact hne rfl
  obtain ⟨c, cs, hform, hc⟩ := head_dropWhile_not isJsSpace _ hinner
  exact ⟨c, cs.reverse, by rw [hform]; simp, hc⟩

theorem trimChars_head_not_space {l : List Char} (hne : trimChars l ≠ []) :
    ∃ c cs, trimChars l = c :: cs ∧ isJsSpace c = false := by
  have hinner : (l.dropWhile isJsSpace).reverse.dropWhile isJsSpace ≠ [] := by
    intro h
    rw [trimChars, h] at hne
    exact hne rfl
  have houter : l.dropWhile isJsSpace ≠ [] := by
    intro h
    rw [h] at hinner
    exact hinner rfl
  obtain ⟨c0, cs0, hform0, hc0⟩ := head_dropWhile_not isJsSpace l houter
  have hlast : ((l.dropWhile isJsSpace).reverse.dropWhile isJsSpace).getLast? =
      (l.dropWhile isJsSpace).reverse.getLast? := getLast?_dropWhile isJsSpace _ hinner
  have hrev : (l.dropWhile isJsSpace).reverse.getLast? = some c0 := by
    rw [hform0]
    rw [show (c0 :: cs0).reverse = cs0.reverse ++ [c0] by simp]
    exact List.getLast?_concat _
  obtain ⟨c, cs, hform⟩ := List.exists_cons_of_ne_nil hne
  refine ⟨c, cs, hform, ?_⟩
  have hhead : (trimChars l).head? = some c := by rw [hform]; rfl
  rw [trimChars, List.head?_reverse, hlast, hrev] at hhead
  injection hhead with hh
  rw [← hh]
  exact hc0

theorem trimChars_idem (l : List Char) : trimChars (trimChars l) = trimChars l := by
  by_cases hne : trimChars l = []
  · rw [hne]; rfl
  · obtain ⟨c, cs, hform, hc⟩ := trimChars_head_not_space hne
    obtain ⟨e, es, hform', he⟩ := trimChars_last_not_space hne
    rw [trimChars]
    have hfront : (trimChars l).dropWhile isJsSpace = trimChars l := by
      rw [hform]
      exact dropWhile_cons_of_neg _ hc
    rw [hfront]
    have hback : (trimChars l).reverse.dropWhile isJsSpace = (trimChars l).reverse := by
      rw [hform', show (es ++ [e]).reverse = e :: es.reverse by simp,
        dropWhile_cons_of_neg _ he]
    rw [hback, List.reverse_reverse]

/-!
### C9: parseSrt never produces an empty lyric
-/

theorem jsFindIndexAux_neg_of_all {α : Type} (p : α → Bool) :
    ∀ (xs : List α) (s : ℤ), (∀ x ∈ xs, p x = false) → jsFindIndexAux p xs s = -1 := by
  intro xs
  induction xs with
  | nil => intro s _; rfl
  | cons x xs ih =>
    intro s h
    rw [jsFindIndexAux, if_neg (by simp [h x (List.mem_cons_self _ _)])]
    exact ih (s + 1) (fun y hy => h y (List.mem_cons_of_mem _ hy))

theorem parseBlock_some_text {block : List Char} {l : TimedLyric}
    (h : parseBlock block = some l) :
    l.text ≠ "" ∧ trimChars l.text.data = l.text.data := by
  rw [parseBlock] at h
  by_cases h1 : 2 ≤ (splitLines block).length
  · rw [if_pos h1] at h
    by_cases h2 : jsFindIndex containsArrow (splitLines block) ≠ -1
    · rw [if_pos h2] at h
      cases hmatch : findTimeMatch
          ((splitLines block).getD (jsFindIndex containsArrow (splitLines block)).toNat []) with
      | none => rw [hmatch] at h; exact absurd h (by simp)
      | some tm =>
        rw [hmatch] at h
        simp only [Option.some_bind] at h
        by_cases h3 : trimChars (joinLines ((splitLines block).drop
            ((jsFindIndex containsArrow (splitLines block)).toNat + 1))) ≠ []
        · rw [if_pos h3] at h
          injection h with h4
          constructor
          · rw [← h4]
            intro hcontra
            have : trimChars (joinLines ((splitLines block).drop
                ((jsFindIndex containsArrow (splitLines block)).toNat + 1))) = [] := by
              have := congrArg String.data hcontra
              simpa using this
            exact h3 this
          · rw [← h4]
            exact trimChars_idem _
        · rw [if_neg h3] at h
          exact absurd h (by simp)
    · rw [if_neg h2] at h
      exact absurd h (by simp)
  · rw [if_neg h1] at h
    exact absurd h (by simp)

/-- C9: every lyric returned by `parseSrt` has a non-empty (and already
trimmed) text; a block with fewer than two lines contributes no element; a
block with no line containing the arrow contributes no element; and a
block whose time line is found but whose remaining lines trim to nothing
contributes no element. -/
theorem parseSrt_no_empty_lyrics :
    (∀ (s : String) (l : TimedLyric), l ∈ parseSrt s →
      l.text ≠ "" ∧ trimChars l.text.data = l.text.data) ∧
    (∀ block : List Char, (splitLines block).length < 2 → parseBlock block = none) ∧
    (∀ block : List Char, (∀ line ∈ splitLines block, containsArrow line = false) →
      parseBlock block = none) ∧
    (∀ block : List Char, trimChars (joinLines ((splitLines block).drop
        ((jsFindIndex containsArrow (splitLines block)).toNat + 1))) = [] →
      parseBlock block = none) := by
  refine ⟨?_, ?_, ?_, ?_⟩
  · intro s l hl
    rw [parseSrt] at hl
    obtain ⟨block, _, hsome⟩ := List.mem_filterMap.mp hl
    exact parseBlock_some_text hsome
  · intro block hlen
    rw [parseBlock, if_neg (by omega)]
  · intro block hnoarrow
    have hfind : jsFindIndex containsArrow (splitLines block) = -1 :=
      jsFindIndexAux_neg_of_all containsArrow (splitLines block) 0 hnoarrow
    rw [parseBlock]
    by_cases h1 : 2 ≤ (splitLines block).length
    · rw [if_pos h1, if_neg (by simp [hfind])]
    · rw [if_neg h1]
  · intro block htrim
    rw [parseBlock]
    by_cases h1 : 2 ≤ (splitLines block).length
    · rw [if_pos h1]
      by_cases h2 : jsFindIndex containsArrow (splitLines block) ≠ -1
      · rw [if_pos h2]
        cases findTimeMatch
            ((splitLines block).getD (jsFindIndex containsArrow (splitLines block)).toNat []) with
        | none => rfl
        | some tm =>
          simp only [Option.some_bind]
          rw [if_neg (by simp [htrim])]
      · rw [if_neg h2]
    · rw [if_neg h1]

/-- C9 (witness): the first part applied to a concrete SRT string whose
single block parses to the lyric "hi", and the second part applied to the
empty block. -/
theorem parseSrt_no_empty_lyrics_witness :
    ((⟨"hi", 1, 2⟩ : TimedLyric).text ≠ "" ∧
      trimChars (⟨"hi", 1, 2⟩ : TimedLyric).text.data = (⟨"hi", 1, 2⟩ : TimedLyric).text.data) ∧
    parseBlock [] = none := by
  constructor
  · exact parseSrt_no_empty_lyrics.1 "1\n00:00:01,000 --> 00:00:02,000\nhi" ⟨"hi", 1, 2⟩
      (by with_unfolding_all decide)
  · exact parseSrt_no_empty_lyrics.2.1 [] (by decide)

/-!
### C4: cancelling a video export aborts and discards
-/

/-- C4: if the export-cancelled flag is set when the recorder's stop
handler runs, no file is downloaded, every track of the combined media
stream is stopped, the audio context is closed, and the export-progress
state is cleared. -/
theorem recorderOnStop_cancelled_discards (s : PlayerState) (fileName : String)
    (hc : s.isExportCancelled = true) :
    (recorderOnStop fileName s).downloads = s.downloads ∧
      (∀ tr ∈ (recorderOnStop fileName s).combinedTracks, tr = true) ∧
      (recorderOnStop fileName s).audioContextClosed = true ∧
      (recorderOnStop fileName s).exportProgress = none := by
  by_cases hw : s.wasPlaying <;>
    simp [recorderOnStop, hc, hw, List.mem_map] <;>
    intro tr htr <;>
    simp at htr <;>
    obtain ⟨a, _, ha⟩ := htr <;>
    exact ha.symm

/-- C4 (witness): the theorem applied to a concrete cancelled session with
two live tracks. -/
theorem recorderOnStop_cancelled_discards_witness :
    (recorderOnStop "out.mp4"
        ⟨[⟨"a", 0, 1⟩], ["bg"], false, false, false, 0, 10, 0, some 50, true, true,
          [], [false, false], false⟩).downloads = [] ∧
      (recorderOnStop "out.mp4"
        ⟨[⟨"a", 0, 1⟩], ["bg"], false, false, false, 0, 10, 0, some 50, true, true,
          [], [false, false], false⟩).exportProgress = none := by
  have h := recorderOnStop_cancelled_discards
    ⟨[⟨"a", 0, 1⟩], ["bg"], false, false, false, 0, 10, 0, some 50, true, true,
      [], [false, false], false⟩ "out.mp4" rfl
  exact ⟨h.1, h.2.2.2⟩

/-!
### C5: AI image generation is atomic and not retried
-/

/-- C5: with the required fields present, a failed API call is caught
(alert appended), leaves the background-image list unchanged, clears the
loading indicator, and makes exactly one call; a successful call appends
the returned images to the existing list without removing prior entries,
also with exactly one call. -/
theorem runAiImageGeneration_atomic (s : AiGenState) (e : String) (imgs : List String)
    (hl : s.lyricsText ≠ "") (ht : s.songTitle ≠ "") (ha : s.artistName ≠ "") :
    ((runAiImageGeneration (Except.error e) s).backgroundImages = s.backgroundImages ∧
      (runAiImageGeneration (Except.error e) s).alerts =
        s.alerts ++ ["AI 圖片生成失敗，請稍後再試。"] ∧
      (runAiImageGeneration (Except.error e) s).isLoading = none ∧
      (runAiImageGeneration (Except.error e) s).apiCalls = s.apiCalls + 1) ∧
    ((runAiImageGeneration (Except.ok imgs) s).backgroundImages =
        s.backgroundImages ++ imgs.map BgImage.dataUrl ∧
      (runAiImageGeneration (Except.ok imgs) s).isLoading = none ∧
      (runAiImageGeneration (Except.ok imgs) s).apiCalls = s.apiCalls + 1) := by
  have hcond : ¬(s.lyricsText = "" ∨ s.songTitle = "" ∨ s.artistName = "") := by
    rintro (h | h | h) <;> [exact hl h; exact ht h; exact ha h]
  constructor
  · rw [runAiImageGeneration, if_neg hcond]
    exact ⟨rfl, rfl, rfl, rfl⟩
  · rw [runAiImageGeneration, if_neg hcond]
    exact ⟨rfl, rfl, rfl⟩

/-- C5 (witness): the theorem applied to a concrete state, a concrete
error and a concrete pair of returned images. -/
theorem runAiImageGeneration_atomic_witness :
    AiGenState.backgroundImages (runAiImageGeneration (Except.error "network")
        ⟨"la la", "Song", "Artist", [BgImage.file "old.png"], some "loading", [], 0⟩) =
      [BgImage.file "old.png"] ∧
    AiGenState.backgroundImages (runAiImageGeneration (Except.ok ["u1", "u2"])
        ⟨"la la", "Song", "Artist", [BgImage.file "old.png"], some "loading", [], 0⟩) =
      [BgImage.file "old.png"] ++ ["u1", "u2"].map BgImage.dataUrl := by
  have h := runAiImageGeneration_atomic
    ⟨"la la", "Song", "Artist", [BgImage.file "old.png"], some "loading", [], 0⟩
    "network" ["u1", "u2"] (by decide) (by decide) (by decide)
  exact ⟨h.1.1, h.2.1⟩

/-!
### C6: password gating of the AI feature
-/

/-- C6: the guarded action runs if and only if the feature is already
unlocked or the entered password equals the stored constant; a correct
entry sets the unlocked flag; a wrong non-null entry only adds the error
alert and changes nothing else; a cancelled prompt changes nothing. -/
theorem handleAiRequest_gate (s : AiGateState) (p : Option String) :
    ((handleAiRequest p s).actionRuns = s.actionRuns + 1 ↔
      (s.isAiUnlocked = true ∨ p = some AI_PASSWORD)) ∧
    (s.isAiUnlocked = false → p = some AI_PASSWORD →
      (handleAiRequest p s).isAiUnlocked = true) ∧
    (∀ pw, s.isAiUnlocked = false → p = some pw → pw ≠ AI_PASSWORD →
      handleAiRequest p s = { s with alerts := s.alerts ++ ["密碼錯誤！"] }) ∧
    (s.isAiUnlocked = false → p = none → handleAiRequest p s = s) := by
  by_cases hu : s.isAiUnlocked
  · refine ⟨by simp [handleAiRequest, hu], by intro h; rw [h] at hu; exact absurd hu (by simp),
      ?_, ?_⟩
    · intro pw h; rw [h] at hu; exact absurd hu (by simp)
    · intro h; rw [h] at hu; exact absurd hu (by simp)
  · cases p with
    | none =>
      refine ⟨by simp [handleAiRequest, hu], by intro _ h; exact absurd h (by simp),
        fun pw _ h => absurd h (by simp), fun _ _ => by simp [handleAiRequest, hu]⟩
    | some pw =>
      by_cases hpw : pw = AI_PASSWORD
      · subst hpw
        refine ⟨by simp [handleAiRequest, hu], fun _ _ => by simp [handleAiRequest, hu],
          ?_, by intro _ h; exact absurd h (by simp)⟩
        intro pw' _ hp hne
        injection hp with hp'
        exact absurd hp'.symm hne
      · refine ⟨?_, ?_, ?_, by intro _ h; exact absurd h (by simp)⟩
        · constructor
          · intro h
            exfalso
            have hruns : (handleAiRequest (some pw) s).actionRuns = s.actionRuns := by
              simp [handleAiRequest, hu, hpw]
            omega
          · rintro (h | h)
            · exact absurd h hu
            · injection h with h'
              exact absurd h' hpw
        · intro _ h
          injection h with h'
          exact absurd h' hpw
        · intro pw' _ hp _
          injection hp with hp'
          subst hp'
          simp [handleAiRequest, hu, hpw]

/-- C6 (witness): the gate applied to a locked state with the correct
password, showing the action ran and the flag is now set. -/
theorem handleAiRequest_gate_witness :
    ((handleAiRequest (some "8888") ⟨false, [], 0⟩).actionRuns = 0 + 1 ↔
      ((false : Bool) = true ∨ (some "8888" : Option String) = some AI_PASSWORD)) ∧
    (handleAiRequest (some "8888") ⟨false, [], 0⟩).isAiUnlocked = true ∧
    handleAiRequest none ⟨false, [], 0⟩ = ⟨false, [], 0⟩ := by
  have h := handleAiRequest_gate ⟨false, [], 0⟩ (some "8888")
  have h2 := handleAiRequest_gate ⟨false, [], 0⟩ none
  exact ⟨h.1, h.2.1 rfl (by decide), h2.2.2.2 rfl rfl⟩

/-!
### C7: the form-submission state transition
-/

/-- C7: a submission with a missing required field only shows the alert
and changes nothing else; otherwise, when an SRT-derived list is present
the state becomes PREVIEW with the timed lyrics set to that list, and
when it is absent the state becomes TIMING with the timed lyrics
unchanged. -/
theorem handleStart_transition (s : AppFormState) :
    ((s.lyricsText = "" ∨ s.audioFile = none ∨ s.songTitle = "" ∨ s.artistName = "") →
      handleStart s = { s with alerts := s.alerts ++ ["請填寫所有必填欄位！"] }) ∧
    (¬(s.lyricsText = "" ∨ s.audioFile = none ∨ s.songTitle = "" ∨ s.artistName = "") →
      (∀ srtL, s.timedLyricsFromSrt = some srtL →
        (handleStart s).appState = AppScreen.PREVIEW ∧
          (handleStart s).timedLyrics = srtL) ∧
      (s.timedLyricsFromSrt = none →
        (handleStart s).appState = AppScreen.TIMING ∧
          (handleStart s).timedLyrics = s.timedLyrics)) := by
  constructor
  · intro h
    rw [handleStart, if_pos h]
  · intro h
    constructor
    · intro srtL hsrt
      rw [handleStart, if_neg h, hsrt]
      exact ⟨rfl, rfl⟩
    · intro hsrt
      rw [handleStart, if_neg h, hsrt]
      exact ⟨rfl, rfl⟩

/-- C7 (witness): the transition on a complete form with SRT-derived
lyrics present, and on a form with a missing audio file. -/
theorem handleStart_transition_witness :
    ((handleStart ⟨"la", "Song", "Artist", some "a.mp3", some [⟨"la", 0, 1⟩], [],
        AppScreen.FORM, []⟩).appState = AppScreen.PREVIEW ∧
      (handleStart ⟨"la", "Song", "Artist", some "a.mp3", some [⟨"la", 0, 1⟩], [],
        AppScreen.FORM, []⟩).timedLyrics = [⟨"la", 0, 1⟩]) ∧
    handleStart ⟨"la", "Song", "Artist", none, none, [], AppScreen.FORM, []⟩ =
      ⟨"la", "Song", "Artist", none, none, [], AppScreen.FORM, ["請填寫所有必填欄位！"]⟩ := by
  constructor
  · exact (handleStart_transition _).2 (by simp) |>.1 [⟨"la", 0, 1⟩] rfl
  · exact (handleStart_transition _).1 (by simp)

/-!
### C8: timed lyrics are immutable during a preview/export session
-/

theorem stepPlayer_preserves_timedLyrics (a : PlayerAction) (s : PlayerState) :
    (stepPlayer a s).timedLyrics = s.timedLyrics := by
  cases a <;>
    simp only [stepPlayer, handlePlayPause, handleTimelineChange, bgEffectStep,
      handleExportSrt, handleCancelExport, drawFrameStopCheck, recorderOnStop] <;>
    first
      | rfl
      | (split_ifs <;> rfl)

/-- C8: no operation of a preview/export session — play/pause, seeking,
background-image switching, SRT export, export cancellation, the export
loop's stop check, or the recorder's stop handler — ever modifies the
timed-lyric sequence: after any sequence of operations it equals the
sequence passed in (and hence so does the content read by the SRT
export, `generateSrtContent` of that sequence). -/
theorem runPlayer_preserves_timedLyrics (acts : List PlayerAction) (s : PlayerState) :
    (runPlayer acts s).timedLyrics = s.timedLyrics ∧
      generateSrtContent (runPlayer acts s).timedLyrics =
        generateSrtContent s.timedLyrics := by
  suffices h : (runPlayer acts s).timedLyrics = s.timedLyrics by
    exact ⟨h, by rw [h]⟩
  induction acts generalizing s with
  | nil => rfl
  | cons a acts ih =>
    rw [runPlayer, List.foldl_cons]
    rw [show List.foldl (fun s a => stepPlayer a s) (stepPlayer a s) acts =
      runPlayer acts (stepPlayer a s) from rfl]
    rw [ih (stepPlayer a s), stepPlayer_preserves_timedLyrics a s]

end LyricVideo
